import Mathlib

/-!
The real-time-cpp firmware: communication, software PWM, register access and
port pins.

A shallow embedding of parts of the `real-time-cpp` reference firmware and
theorems about them.

* `communication::send_uint`
  (`code_snippets/chapter05/chapter05_03-002_communication_template.cpp`)
* `mcal::pwm::pwm_board`
  (`examples/chapter09_08/src/mcal/avr/mcal_pwm_board.h`)
* `mcal::port::port_pin` of the AM335x (`ref_app/src/mcal/am335x/mcal_port.h`)
  and of the hosted target (`examples/chapter06_14/src/mcal/win32/mcal_port.h`)
* `reg_access_dynamic` (`code_snippets/chapter07/chapter07_03-001_register_access.cpp`)
* `math::checksums::crc::crc32_mpeg2`
  (`examples/chapter06_14/src/math/checksums/crc/crc32_mpeg2.h`)
* functions of the DCAN, ECAP and PHY drivers
  (`ref_app/src_old_example/drivers/dcan.c`, `ecap.c`, `phy.c`)

Unsigned machine integers are natural numbers; an operation that can leave the
range of its type is reduced modulo `2 ^ w` explicitly.
-/

namespace communication

/-- One `send_byte(b)` call as seen from outside: the byte passed and the
`bool` that the call returned. -/
structure Call where
  byte : Nat
  ok : Bool
  deriving DecidableEq, Repr

/-- The result of one `send_uint` run: the final value of the loop variable
`i`, the channel after the run, and the `send_byte` calls in the order in
which they were made. -/
structure Run (σ : Type) where
  i : Nat
  chan : σ
  calls : List Call

/-- The byte `const std::uint8_t by(u >> (i * 8U));` : the shift followed by
the conversion to `std::uint8_t`. -/
def byte_of (u i : Nat) : Nat := (u >>> (i * 8)) % 2 ^ 8

/-- The loop `for(i = 0U; i < count; i++) { ...; if(send_byte(by) == false) break; }`
of `send_uint`, from loop variable `i` and channel `st`.  `send_byte` is the
virtual member function: any function of the channel state and the byte that
yields a `bool` and the next channel state.  The first argument bounds the
number of iterations; `count - i` is always enough (`send_uint_loop_fuel`). -/
def send_uint_loop {σ : Type} (send_byte : σ → Nat → Bool × σ) (u count : Nat) :
    Nat → Nat → σ → Run σ
  | 0, i, st => ⟨i, st, []⟩
  | fuel + 1, i, st =>
    if i < count then
      let by_ := byte_of u i
      let r := send_byte st by_
      if r.1 = false then
        ⟨i, r.2, [⟨by_, r.1⟩]⟩
      else
        let rest := send_uint_loop send_byte u count fuel (i + 1) r.2
        ⟨rest.i, rest.chan, ⟨by_, r.1⟩ :: rest.calls⟩
    else ⟨i, st, []⟩

/-- The member function `communication::send_uint<unsigned_type>(u)` for an `unsigned_type` with
`std::numeric_limits<unsigned_type>::digits = digits`: the returned `bool`
`(i == count)`, the channel afterwards and the `send_byte` calls made. -/
def send_uint {σ : Type} (send_byte : σ → Nat → Bool × σ) (digits u : Nat) (st : σ) :
    Bool × Run σ :=
  let count := digits / 8
  let run := send_uint_loop send_byte u count count 0 st
  (run.i == count, run)

/-- The channel after the first `j` bytes of `u` have been passed to
`send_byte`, starting from `st`. -/
def chan_after {σ : Type} (send_byte : σ → Nat → Bool × σ) (u : Nat) (st : σ) : Nat → σ
  | 0 => st
  | j + 1 => (send_byte (chan_after send_byte u st j) (byte_of u j)).2

/-- What the `send_byte` call for byte index `j` returns when it is made,
that is after the calls for the bytes `0 .. j-1`. -/
def outcome {σ : Type} (send_byte : σ → Nat → Bool × σ) (u : Nat) (st : σ) (j : Nat) : Bool :=
  (send_byte (chan_after send_byte u st j) (byte_of u j)).1

/-- The call record for byte index `j`. -/
def call_at {σ : Type} (send_byte : σ → Nat → Bool × σ) (u : Nat) (st : σ) (j : Nat) : Call :=
  ⟨byte_of u j, outcome send_byte u st j⟩

/-- A channel that counts the calls and lets the call with index `k` fail
(`k = none`: no call fails). -/
def failing_at (k : Option Nat) (n : Nat) (_b : Nat) : Bool × Nat :=
  (decide (k ≠ some n), n + 1)

/-- Reassembly of a byte sequence, least significant byte first. -/
def reassemble (bs : List Nat) : Nat :=
  ((List.range bs.length).map (fun i => bs.getD i 0 * 256 ^ i)).sum

end communication

namespace mcal.pwm

/-- The static member functions of the `port_pin_type` template parameter
that `pwm_board` calls. -/
inductive PinCall where
  | set_pin_high
  | set_pin_low
  | set_direction_output
  | set_direction_input
  | toggle_pin
  deriving DecidableEq, Repr

/-- The data members that `pwm_board` inherits from `pwm_base`; each is a
`duty_type`, an unsigned integer type of `w` bits (`w` is a parameter of
`service`). -/
structure pwm_board where
  resolution : Nat
  counter : Nat
  duty_cycle : Nat
  shadow : Nat
  deriving DecidableEq, Repr

/-- The member function `pwm_board::service()`: the state after the call and the `port_pin_type`
function that the call invokes.  `++counter` is the increment of a `w`-bit
unsigned integer. -/
def service (w : Nat) (s : pwm_board) : pwm_board × PinCall :=
  -- ++counter;
  let s1 : pwm_board := { s with counter := (s.counter + 1) % 2 ^ w }
  -- if(counter <= duty_cycle) set_pin_high(); else set_pin_low();
  let pin : PinCall :=
    if s1.counter ≤ s1.duty_cycle then PinCall.set_pin_high else PinCall.set_pin_low
  -- if(counter >= resolution) { duty_cycle = shadow; counter = 0U; }
  let s2 : pwm_board :=
    if s1.counter ≥ s1.resolution then
      { s1 with duty_cycle := s1.shadow, counter := 0 }
    else s1
  (s2, pin)

/-- Modelled from the spec: the owner's store to `shadow` ("`shadow` may be
written at any time by the owner"); the member function of `pwm_base` that
performs it is declared in `mcal/mcal_pwm_base.h`, which is not among the
sources.  Only `shadow` changes. -/
def write_shadow (v : Nat) (s : pwm_board) : pwm_board := { s with shadow := v }

/-- The stores `vs` to `shadow`, in order. -/
def write_all (vs : List Nat) (s : pwm_board) : pwm_board :=
  vs.foldl (fun t v => write_shadow v t) s

/-- One tick: the owner's stores `vs` to `shadow` since the previous
`service()` call, then the `service()` call. -/
def tick (w : Nat) (vs : List Nat) (s : pwm_board) : pwm_board × PinCall :=
  service w (write_all vs s)

/-- A run of consecutive ticks: element `k` of the schedule lists the values
stored to `shadow` before the `service()` call number `k + 1`.  The result is
the final state and the pin calls of the `service()` calls in order. -/
def run (w : Nat) : List (List Nat) → pwm_board → pwm_board × List PinCall
  | [], s => (s, [])
  | vs :: rest, s =>
    let r := tick w vs s
    let out := run w rest r.1
    (out.1, r.2 :: out.2)

/-- The value that `shadow` holds after the stores of a schedule: the last
value stored, or the starting value `v0` when there was no store. -/
def last_written (v0 : Nat) (ws : List (List Nat)) : Nat :=
  (ws.flatten.getLast?).getD v0

/-- The pin call of tick `k` (counted from 1) of a period run with duty cycle
`d`: high up to and including tick `d`. -/
def level (d k : Nat) : PinCall :=
  if k ≤ d then PinCall.set_pin_high else PinCall.set_pin_low

/-- The schedule of `n` ticks without any store to `shadow`. -/
def idle (n : Nat) : List (List Nat) := List.replicate n []

end mcal.pwm

namespace communication

/-- The two members of `std::numeric_limits<unsigned_type>` that `send_uint`
reads. -/
structure numeric_limits where
  is_signed : Bool
  digits : Nat
  deriving DecidableEq, Repr

/-- The diagnostic of the `static_assert` in `send_uint`:
"error: type must be unsigned". -/
inductive compile_error where
  | type_must_be_unsigned
  deriving DecidableEq, Repr

/-- The instantiation of the member template `send_uint<unsigned_type>` for a
type with the given `numeric_limits`, applied to `u`:
`static_assert(type_is_signed == false, ...)` rejects the instantiation, and
otherwise the body runs with `count = digits / 8`. -/
def send_uint_instantiated {σ : Type} (lim : numeric_limits)
    (send_byte : σ → Nat → Bool × σ) (u : Nat) (st : σ) :
    Except compile_error (Bool × Run σ) :=
  -- constexpr bool type_is_signed = std::numeric_limits<unsigned_type>::is_signed;
  let type_is_signed := lim.is_signed
  -- static_assert(type_is_signed == false, "error: type must be unsigned");
  if type_is_signed == false then
    Except.ok (send_uint send_byte lim.digits u st)
  else
    Except.error compile_error.type_must_be_unsigned

end communication

namespace mcal.pwm

/-- The constructor `pwm_board(resol, duty) : pwm_base(resol, duty)`: the
object as the base-class constructor left it (`base`; `pwm_base` is declared
in `mcal/mcal_pwm_base.h`, which is not among the sources) and the
`port_pin_type` calls of the constructor body in order. -/
def pwm_board.construct (base : pwm_board) : pwm_board × List PinCall :=
  (base, [PinCall.set_pin_low, PinCall.set_direction_output])

end mcal.pwm

namespace mcal.reg

/-- The register file: the value of the register at each address.  Every
address names a register of its own. -/
abbrev reg_file := Nat → Nat

/-- Modelled from the spec: the mask `(1 << bit_position)` of the bit
operations of `reg_access_static` (declared in `mcal_reg.h`, which is not among
the sources), as a value of the `rw`-bit register type. -/
def bit_mask (rw bpos : Nat) : Nat := (1 <<< bpos) % 2 ^ rw

/-- Modelled from the spec: the complement `~m` in `register &= ~(1 << bit_position)`
for a value `m` of the `rw`-bit register type. -/
def bit_complement (rw m : Nat) : Nat := (2 ^ rw - 1) ^^^ m

namespace reg_access_static

/-- Modelled from the spec: `reg_access_static<addr_type, reg_type, addr, bpos>::bit_set()`,
which "performs `register |= (1 << bit_position)`"; the class is declared in
`mcal_reg.h`, which is not among the sources. -/
def bit_set (rw addr bpos : Nat) (rf : reg_file) : reg_file :=
  Function.update rf addr (rf addr ||| bit_mask rw bpos)

/-- Modelled from the spec: `reg_access_static<..>::bit_clr()`, which
"performs `register &= ~(1 << bit_position)`" (`mcal_reg.h` is not among the
sources). -/
def bit_clr (rw addr bpos : Nat) (rf : reg_file) : reg_file :=
  Function.update rf addr (rf addr &&& bit_complement rw (bit_mask rw bpos))

/-- Modelled from the spec: `reg_access_static<..>::bit_not()`, which
"performs `register ^= (1 << bit_position)`" (`mcal_reg.h` is not among the
sources). -/
def bit_not (rw addr bpos : Nat) (rf : reg_file) : reg_file :=
  Function.update rf addr (rf addr ^^^ bit_mask rw bpos)

/-- Modelled from the spec: `reg_access_static<..>::bit_get()`, which "returns
whether the bit is set" (`mcal_reg.h` is not among the sources). -/
def bit_get (_rw addr bpos : Nat) (rf : reg_file) : Bool :=
  (rf addr).testBit bpos

end reg_access_static

end mcal.reg

namespace am335x.port_pin

open mcal.reg

/-- The constant `pdir = addr_type(port + 0x0134UL)` for an `addr_type` of `aw` bits. -/
def pdir (aw port : Nat) : Nat := (port + 0x0134) % 2 ^ aw

/-- The constant `pinp = addr_type(port + 0x0138UL)`. -/
def pinp (aw port : Nat) : Nat := (port + 0x0138) % 2 ^ aw

/-- The constant `pval = addr_type(port + 0x013CUL)`. -/
def pval (aw port : Nat) : Nat := (port + 0x013C) % 2 ^ aw

/-- The member `port_pin<addr_type, reg_type, port, bpos>::set_direction_output()`;
`aw` and `rw` are the widths of `addr_type` and `reg_type`. -/
def set_direction_output (aw rw port bpos : Nat) (rf : reg_file) : reg_file :=
  reg_access_static.bit_clr rw (pdir aw port) bpos rf

/-- The member `port_pin<..>::set_direction_input()`. -/
def set_direction_input (aw rw port bpos : Nat) (rf : reg_file) : reg_file :=
  reg_access_static.bit_set rw (pdir aw port) bpos rf

/-- The member `port_pin<..>::set_pin_high()`. -/
def set_pin_high (aw rw port bpos : Nat) (rf : reg_file) : reg_file :=
  reg_access_static.bit_set rw (pval aw port) bpos rf

/-- The member `port_pin<..>::set_pin_low()`. -/
def set_pin_low (aw rw port bpos : Nat) (rf : reg_file) : reg_file :=
  reg_access_static.bit_clr rw (pval aw port) bpos rf

/-- The member `port_pin<..>::read_input_value()`. -/
def read_input_value (aw rw port bpos : Nat) (rf : reg_file) : Bool :=
  reg_access_static.bit_get rw (pinp aw port) bpos rf

/-- The member `port_pin<..>::toggle_pin()`. -/
def toggle_pin (aw rw port bpos : Nat) (rf : reg_file) : reg_file :=
  reg_access_static.bit_not rw (pval aw port) bpos rf

/-- A `port_pin_type` call when `port_pin_type` is this `port_pin`. -/
def call (aw rw port bpos : Nat) : mcal.pwm.PinCall → reg_file → reg_file
  | .set_pin_high => set_pin_high aw rw port bpos
  | .set_pin_low => set_pin_low aw rw port bpos
  | .set_direction_output => set_direction_output aw rw port bpos
  | .set_direction_input => set_direction_input aw rw port bpos
  | .toggle_pin => toggle_pin aw rw port bpos

/-- A sequence of `port_pin_type` calls, first call first. -/
def call_all (aw rw port bpos : Nat) (calls : List mcal.pwm.PinCall) (rf : reg_file) :
    reg_file :=
  calls.foldl (fun r c => call aw rw port bpos c r) rf

end am335x.port_pin

namespace win32.port_pin

/-- The hosted `port_pin::set_direction_output() { }` on any program state. -/
def set_direction_output {σ : Type} (hw : σ) : σ := hw

/-- The hosted `port_pin::set_direction_input() { }`. -/
def set_direction_input {σ : Type} (hw : σ) : σ := hw

/-- The hosted `port_pin::set_pin_high() { }`. -/
def set_pin_high {σ : Type} (hw : σ) : σ := hw

/-- The hosted `port_pin::set_pin_low() { }`. -/
def set_pin_low {σ : Type} (hw : σ) : σ := hw

/-- The hosted `port_pin::read_input_value() { return false; }`. -/
def read_input_value {σ : Type} (_hw : σ) : Bool := false

/-- The hosted `port_pin::toggle_pin() { }`. -/
def toggle_pin {σ : Type} (hw : σ) : σ := hw

/-- A `port_pin` call on the hosted target. -/
def call {σ : Type} : mcal.pwm.PinCall → σ → σ
  | .set_pin_high => set_pin_high
  | .set_pin_low => set_pin_low
  | .set_direction_output => set_direction_output
  | .set_direction_input => set_direction_input
  | .toggle_pin => toggle_pin

/-- A sequence of `port_pin` calls on the hosted target, first call first. -/
def call_all {σ : Type} (calls : List mcal.pwm.PinCall) (hw : σ) : σ :=
  calls.foldl (fun h c => call c h) hw

end win32.port_pin

namespace reg_access_dynamic

open mcal.reg

/-- The member `reg_access_dynamic<addr_type, reg_type>::reg_set(addr, val)`:
`*reinterpret_cast<volatile reg_type*>(addr) = val;` for a `reg_type` of `rw`
bits. -/
def reg_set (rw addr val : Nat) (rf : reg_file) : reg_file :=
  Function.update rf addr (val % 2 ^ rw)

/-- The member `reg_access_dynamic<addr_type, reg_type>::reg_or(addr, val)`:
`*reinterpret_cast<volatile reg_type*>(addr) |= val;`, the result converted
to the `rw`-bit `reg_type`. -/
def reg_or (rw addr val : Nat) (rf : reg_file) : reg_file :=
  Function.update rf addr ((rf addr ||| val % 2 ^ rw) % 2 ^ rw)

/-- The function `do_something()`:
`reg_access_dynamic<std::uintptr_t, std::uint8_t>::reg_or(address, 0x20U);`
where `address` is the address of `simulated_register_portb`. -/
def do_something (address : Nat) (rf : reg_file) : reg_file :=
  reg_or 8 address 0x20 rf

end reg_access_dynamic

namespace math.checksums.crc

/-- The nibble table `table` of `crc32_mpeg2`. -/
def table : List Nat :=
  [0x00000000, 0x04C11DB7, 0x09823B6E, 0x0D4326D9,
   0x130476DC, 0x17C56B6B, 0x1A864DB2, 0x1E475005,
   0x2608EDB8, 0x22C9F00F, 0x2F8AD6D6, 0x2B4BCB61,
   0x350C9B64, 0x31CD86D3, 0x3C8EA00A, 0x384FBDBD]

/-- The body of the `while(first != last)` loop of `crc32_mpeg2` for the
element `x = *first` and the running `crc`.  The conversions to
`std::uint_fast8_t` are written for 8 bits; their operands are below `2 ^ 8`,
so a wider `uint_fast8_t` gives the same values. -/
def crc32_mpeg2_step (crc x : Nat) : Nat :=
  -- const value_type value = (*first) & UINT8_C(0xFF);
  let value := x &&& 0xFF
  -- const std::uint_fast8_t byte = uint_fast8_t(value);
  let byte := value % 2 ^ 8
  -- index = ((std::uint_fast8_t(crc >> 28)) ^ (std::uint_fast8_t(byte >> 4))) & UINT8_C(0x0F);
  let index := (((crc >>> 28) % 2 ^ 8) ^^^ ((byte >>> 4) % 2 ^ 8)) &&& 0x0F
  -- crc = std::uint32_t(std::uint32_t(crc << 4) & UINT32_C(0xFFFFFFF0)) ^ table[index];
  let crc1 := ((((crc <<< 4) % 2 ^ 32) &&& 0xFFFFFFF0) % 2 ^ 32) ^^^ table.getD index 0
  -- index = ((std::uint_fast8_t(crc >> 28)) ^ (std::uint_fast8_t(byte))) & UINT8_C(0x0F);
  let index2 := (((crc1 >>> 28) % 2 ^ 8) ^^^ (byte % 2 ^ 8)) &&& 0x0F
  -- crc = std::uint32_t(std::uint32_t(crc << 4) & UINT32_C(0xFFFFFFF0)) ^ table[index];
  ((((crc1 <<< 4) % 2 ^ 32) &&& 0xFFFFFFF0) % 2 ^ 32) ^^^ table.getD index2 0

/-- The function `crc32_mpeg2(first, last)` on the sequence `[first, last)`:
the initial value `0xFFFFFFFF`, then the loop body for each element in order. -/
def crc32_mpeg2 (data : List Nat) : Nat :=
  data.foldl crc32_mpeg2_step 0xFFFFFFFF

/-- One step of the bit-serial CRC-32/MPEG-2 definition: shift the 32-bit
register left by one and XOR `0x04C11DB7` if the bit shifted out was 1. -/
def bit_serial_shift (c : Nat) : Nat :=
  if c.testBit 31 then ((c <<< 1) % 2 ^ 32) ^^^ 0x04C11DB7 else (c <<< 1) % 2 ^ 32

/-- The bit-serial CRC-32/MPEG-2 definition for one byte: the byte is XORed
into the top 8 bits, then eight shift steps follow. -/
def bit_serial_byte (c b : Nat) : Nat :=
  Nat.iterate bit_serial_shift 8 (c ^^^ (b <<< 24))

/-- The bit-serial CRC-32/MPEG-2 definition: initial value `0xFFFFFFFF`, no
reflection of input or output, no final XOR. -/
def crc32_mpeg2_bit_serial (data : List Nat) : Nat :=
  data.foldl bit_serial_byte 0xFFFFFFFF

end math.checksums.crc

namespace dcan

/-- The constant `DCAN_INT0_ACTIVE` of `dcan.h`. -/
def DCAN_INT0_ACTIVE : Nat := 0x00000000

/-- The constant `DCAN_INT1_ACTIVE` of `dcan.h`. -/
def DCAN_INT1_ACTIVE : Nat := 0x00000001

/-- The expression `(1 << offSet)` used as an `unsigned int` operand. -/
def bit (offSet : Nat) : Nat := (1 <<< offSet) % 2 ^ 32

/-- The function `DCANTxRqstStatusGet(baseAdd, msgNum)`.  The argument `txrq`
gives the value of `HWREG(baseAdd + DCAN_TXRQ(regNum))` for each `regNum`
(the macros `HWREG` and `DCAN_TXRQ` are not among the sources). -/
def DCANTxRqstStatusGet (txrq : Nat → Nat) (msgNum : Nat) : Nat :=
  let regNum := (msgNum - 1) / 32
  let offSet := (msgNum - 1) % 32
  txrq regNum &&& bit offSet

/-- The loop `while(index < 128) { ... if(!(HWREG(..) & (1 << offSet))) break; index++; }`
of `DCANTxRqstStatGet` from the current `index`; the first argument bounds the
number of iterations (`128 - index` are enough). -/
def DCANTxRqstStatGet_loop (txrq : Nat → Nat) : Nat → Nat → Nat
  | 0, index => index
  | fuel + 1, index =>
    if index < 128 then
      let regNum := (index - 1) / 32
      let offSet := (index - 1) % 32
      if (txrq regNum &&& bit offSet) = 0 then index
      else DCANTxRqstStatGet_loop txrq fuel (index + 1)
    else index

/-- The function `DCANTxRqstStatGet(baseAdd)`: `index` starts at 1. -/
def DCANTxRqstStatGet (txrq : Nat → Nat) : Nat :=
  DCANTxRqstStatGet_loop txrq 128 1

/-- The function `DCANIntMuxConfig(baseAdd, intLine, msgNum)` on the bank of
`DCAN_INTMUX` registers: `intmux regNum` is the value of
`HWREG(baseAdd + DCAN_INTMUX(regNum))` (the macros `HWREG` and `DCAN_INTMUX`
are not among the sources).  The result is the bank after the call. -/
def DCANIntMuxConfig (intmux : Nat → Nat) (_intLine msgNum : Nat) : Nat → Nat :=
  let regNum := (msgNum - 1) / 32
  let offSet := (msgNum - 1) % 32
  -- HWREG(baseAdd + DCAN_INTMUX(regNum)) &= ~(1 << offSet);
  let bank1 := Function.update intmux regNum
    (intmux regNum &&& ((2 ^ 32 - 1) ^^^ bit offSet))
  -- HWREG(baseAdd + DCAN_INTMUX(regNum)) |= (msgNum << offSet);
  Function.update bank1 regNum (bank1 regNum ||| (msgNum <<< offSet) % 2 ^ 32)

/-- The IntMux bit of message object `msgNum` in a bank of `DCAN_INTMUX`
registers: bit `(msgNum - 1) mod 32` of register `(msgNum - 1) div 32`. -/
def IntMux (intmux : Nat → Nat) (msgNum : Nat) : Bool :=
  (intmux ((msgNum - 1) / 32)).testBit ((msgNum - 1) % 32)

end dcan

namespace ecap

/-- The function `ECAPCapeEvtPolarityConfig(baseAdd, capEvt1pol, .., capEvt4pol)`
as a function of the value `ecctl1` of the 16-bit register
`HWREGH(baseAdd + ECAP_ECCTL1)`; the result is the value after the call (the
macros `HWREGH` and `ECAP_ECCTL1` are not among the sources). -/
def ECAPCapeEvtPolarityConfig (ecctl1 capEvt1pol _capEvt2pol _capEvt3pol _capEvt4pol : Nat) :
    Nat :=
  -- HWREGH(baseAdd + ECAP_ECCTL1) |= capEvt1pol << 0;
  let r1 := (ecctl1 ||| (capEvt1pol <<< 0) % 2 ^ 32) % 2 ^ 16
  -- HWREGH(baseAdd + ECAP_ECCTL1) |= capEvt1pol << 2;
  let r2 := (r1 ||| (capEvt1pol <<< 2) % 2 ^ 32) % 2 ^ 16
  -- HWREGH(baseAdd + ECAP_ECCTL1) |= capEvt1pol << 4;
  let r3 := (r2 ||| (capEvt1pol <<< 4) % 2 ^ 32) % 2 ^ 16
  -- HWREGH(baseAdd + ECAP_ECCTL1) |= capEvt1pol << 6;
  (r3 ||| (capEvt1pol <<< 6) % 2 ^ 32) % 2 ^ 16

/-- The function `ECAPIntEnable(baseAdd, flag)` as a function of the value
`eceint` of the 16-bit register `HWREGH(baseAdd + ECAP_ECEINT)`. -/
def ECAPIntEnable (eceint flag : Nat) : Nat :=
  (eceint ||| flag) % 2 ^ 16

/-- The function `ECAPIntDisable(baseAdd, flag)` as a function of the value
`eceint` of the 16-bit register `HWREGH(baseAdd + ECAP_ECEINT)`. -/
def ECAPIntDisable (eceint flag : Nat) : Nat :=
  (eceint ||| flag) % 2 ^ 16

end ecap

namespace phy

/-- The function `PhyAutoNegStatusGet(mdioBaseAddr, phyAddr)` as a function of
the value `data` that `MDIOPhyRegRead` stored for `PHY_BSR`; `TRUE` is `true`.
The constants `PHY_AUTONEG_INCOMPLETE` and `PHY_AUTONEG_STATUS` of `phy.h`,
which is not among the sources, are parameters. -/
def PhyAutoNegStatusGet (PHY_AUTONEG_INCOMPLETE PHY_AUTONEG_STATUS data : Nat) : Bool :=
  if PHY_AUTONEG_INCOMPLETE = (data % 2 ^ 16 &&& PHY_AUTONEG_STATUS) then true else false

/-- The loop `while (retries) { MDIOPhyRegRead(.., &linkStatus); if(linkStatus & PHY_LINK_STATUS) return TRUE; retries--; }`
of `PhyLinkStatusGet`: `bsr n` is the value that read number `n` (from 0)
stores in `linkStatus`, `n` counts the reads made so far; the result is the
value returned and the number of reads made. -/
def PhyLinkStatusGet_loop (PHY_LINK_STATUS : Nat) (bsr : Nat → Nat) : Nat → Nat → Bool × Nat
  | 0, n => (false, n)
  | retries + 1, n =>
    if (bsr n % 2 ^ 16 &&& PHY_LINK_STATUS) ≠ 0 then (true, n + 1)
    else PhyLinkStatusGet_loop PHY_LINK_STATUS bsr retries (n + 1)

/-- The function `PhyLinkStatusGet(mdioBaseAddr, phyAddr, retries)` for an
`unsigned int` of `w` bits: `retries++`, then the loop.  The constant
`PHY_LINK_STATUS` of `phy.h`, which is not among the sources, is a parameter. -/
def PhyLinkStatusGet (w PHY_LINK_STATUS : Nat) (bsr : Nat → Nat) (retries : Nat) : Bool × Nat :=
  PhyLinkStatusGet_loop PHY_LINK_STATUS bsr ((retries + 1) % 2 ^ w) 0

end phy

namespace communication

section loop

variable {σ : Type} (send_byte : σ → Nat → Bool × σ) (u : Nat) (st : σ)

theorem chan_after_succ (j : Nat) :
    chan_after send_byte u st (j + 1)
      = (send_byte (chan_after send_byte u st j) (byte_of u j)).2 := rfl

/-- The loop of `send_uint`, started at `i` on the channel reached after `i`
bytes, stops at the first byte index `k ≥ i` whose call fails (`k = count` when
there is none) and has called `send_byte` for the indices `i .. k`. -/
theorem send_uint_loop_stops (count : Nat) :
    ∀ (fuel i k : Nat), count - i ≤ fuel → i ≤ k → k ≤ count →
      (∀ j, i ≤ j → j < k → outcome send_byte u st j = true) →
      (k < count → outcome send_byte u st k = false) →
      send_uint_loop send_byte u count fuel i (chan_after send_byte u st i)
        = ⟨k, chan_after send_byte u st (min (k + 1) count),
            (List.range' i (min (k + 1) count - i)).map (call_at send_byte u st)⟩ := by
  intro fuel
  induction fuel with
  | zero =>
    intro i k hf hik hkc _ _
    have hi : i = count := by omega
    have hk : k = count := by omega
    subst hi; subst hk
    simp [send_uint_loop]
  | succ fuel ih =>
    intro i k hf hik hkc htrue hfalse
    by_cases hlt : i < count
    · by_cases hok : outcome send_byte u st i = false
      · have hk : k = i := by
          by_contra hne
          have h1 := htrue i (le_refl i) (by omega)
          rw [hok] at h1
          exact Bool.false_ne_true h1
        subst hk
        have hok2 : (send_byte (chan_after send_byte u st k) (byte_of u k)).1 = false := hok
        have hm : min (k + 1) count = k + 1 := by omega
        have h1 : k + 1 - k = 1 := by omega
        simp [send_uint_loop, hlt, hok2, hm, h1, call_at, outcome, chan_after_succ]
      · have hok1 : outcome send_byte u st i = true := by
          cases h : outcome send_byte u st i
          · exact absurd h hok
          · rfl
        have hk : i + 1 ≤ k := by
          by_contra hne
          have hki : k = i := by omega
          have h1 := hfalse (by omega)
          rw [hki] at h1
          exact hok h1
        have hok2 : (send_byte (chan_after send_byte u st i) (byte_of u i)).1 = true := hok1
        have hrec := ih (i + 1) k (by omega) hk hkc
          (fun j h1 h2 => htrue j (by omega) h2) hfalse
        rw [chan_after_succ] at hrec
        have hlen : min (k + 1) count - i = (min (k + 1) count - (i + 1)) + 1 := by omega
        simp only [send_uint_loop, hlt, if_true, hok2, hrec, hlen, List.range'_succ,
          List.map_cons, call_at, outcome]
        simp
    · have hi : i = count := by omega
      have hk : k = count := by omega
      subst hi; subst hk
      simp [send_uint_loop]

/-- There is a first failing byte index, or none below `count`. -/
theorem first_failure (count : Nat) :
    ∃ k, k ≤ count ∧ (∀ j, j < k → outcome send_byte u st j = true) ∧
      (k < count → outcome send_byte u st k = false) := by
  induction count with
  | zero => exact ⟨0, le_refl 0, fun j h => absurd h (Nat.not_lt_zero j), fun h => absurd h (Nat.lt_irrefl 0)⟩
  | succ n ih =>
    obtain ⟨k, hk, h1, h2⟩ := ih
    by_cases hkn : k < n
    · exact ⟨k, by omega, h1, fun _ => h2 hkn⟩
    · have hk2 : k = n := by omega
      subst hk2
      cases h : outcome send_byte u st k
      · exact ⟨k, by omega, h1, fun _ => h⟩
      · refine ⟨k + 1, le_refl _, ?_, fun h3 => absurd h3 (Nat.lt_irrefl _)⟩
        intro j hj
        by_cases hjk : j < k
        · exact h1 j hjk
        · have : j = k := by omega
          rw [this]; exact h

/-- The whole of `send_uint` in terms of the first failing byte index `k`
(`k = digits / 8` when no call fails). -/
theorem send_uint_first_failure (digits k : Nat) (hk : k ≤ digits / 8)
    (htrue : ∀ j, j < k → outcome send_byte u st j = true)
    (hfalse : k < digits / 8 → outcome send_byte u st k = false) :
    send_uint send_byte digits u st
      = (k == digits / 8,
          ⟨k, chan_after send_byte u st (min (k + 1) (digits / 8)),
            (List.range (min (k + 1) (digits / 8))).map (call_at send_byte u st)⟩) := by
  have h := send_uint_loop_stops send_byte u st (digits / 8) (digits / 8) 0 k (by omega)
    (Nat.zero_le k) hk (fun j _ h2 => htrue j h2) hfalse
  have h0 : chan_after send_byte u st 0 = st := rfl
  rw [h0] at h
  simp only [send_uint, h, Nat.sub_zero, List.range_eq_range']

/-- More iterations than `count - i` do not change the result of the loop. -/
theorem send_uint_loop_fuel (count fuel i : Nat) (hf : count - i ≤ fuel) (hi : i ≤ count) :
    send_uint_loop send_byte u count fuel i (chan_after send_byte u st i)
      = send_uint_loop send_byte u count (count - i) i (chan_after send_byte u st i) := by
  have hex : ∃ k, i ≤ k ∧ k ≤ count ∧
      (∀ j, i ≤ j → j < k → outcome send_byte u st j = true) ∧
      (k < count → outcome send_byte u st k = false) := by
    by_cases hall : ∀ j, i ≤ j → j < count → outcome send_byte u st j = true
    · exact ⟨count, hi, le_refl _, hall, fun h => absurd h (Nat.lt_irrefl _)⟩
    · have hex2 : ∃ j, i ≤ j ∧ j < count ∧ outcome send_byte u st j = false := by
        by_contra hno
        apply hall
        intro j h1 h2
        cases h : outcome send_byte u st j
        · exact absurd ⟨j, h1, h2, h⟩ hno
        · rfl
      classical
      have hmin := Nat.find_spec hex2
      refine ⟨Nat.find hex2, hmin.1, le_of_lt hmin.2.1, ?_, fun _ => hmin.2.2⟩
      intro j h1 h2
      have h3 := Nat.find_min hex2 h2
      cases h : outcome send_byte u st j
      · exact absurd ⟨h1, by omega, h⟩ h3
      · rfl
  obtain ⟨k, h1, h2, h3, h4⟩ := hex
  rw [send_uint_loop_stops send_byte u st count fuel i k hf h1 h2 h3 h4,
    send_uint_loop_stops send_byte u st count (count - i) i k (le_refl _) h1 h2 h3 h4]

end loop

section bytes

/-- The conversion to `std::uint8_t` keeps the low eight bits. -/
theorem byte_of_eq_and (u i : Nat) : byte_of u i = (u >>> (8 * i)) &&& 0xFF := by
  have h : (0xFF : Nat) = 2 ^ 8 - 1 := by norm_num
  rw [h, Nat.and_pow_two_sub_one_eq_mod, byte_of, Nat.mul_comm]

theorem byte_of_eq_div (u i : Nat) : byte_of u i = u / 256 ^ i % 256 := by
  have h : (256 : Nat) = 2 ^ 8 := by norm_num
  rw [byte_of, Nat.shiftRight_eq_div_pow, h, ← pow_mul, Nat.mul_comm]

theorem reassemble_map_range (f : Nat → Nat) (N : Nat) :
    reassemble ((List.range N).map f) = ((List.range N).map (fun i => f i * 256 ^ i)).sum := by
  unfold reassemble
  rw [List.length_map, List.length_range]
  congr 1
  apply List.map_congr_left
  intro i hi
  have hi2 : i < N := List.mem_range.mp hi
  simp [List.getD_eq_getElem?_getD, List.getElem?_map, List.getElem?_range hi2]

/-- The `N` low bytes of `u`, weighted least significant first, add up to
`u % 256 ^ N`. -/
theorem sum_bytes (u N : Nat) :
    ((List.range N).map (fun i => byte_of u i * 256 ^ i)).sum = u % 256 ^ N := by
  induction N with
  | zero => simp [Nat.mod_one]
  | succ n ih =>
    rw [List.range_succ, List.map_append, List.sum_append, ih, Nat.mod_pow_succ]
    simp [byte_of_eq_div, Nat.mul_comm]

end bytes

section claims

variable {σ : Type} (send_byte : σ → Nat → Bool × σ) (st : σ)

theorem send_uint_all_ok (digits u : Nat)
    (hok : ∀ j, j < digits / 8 → outcome send_byte u st j = true) :
    send_uint send_byte digits u st
      = (true, ⟨digits / 8, chan_after send_byte u st (digits / 8),
          (List.range (digits / 8)).map (call_at send_byte u st)⟩) := by
  have h := send_uint_first_failure send_byte u st digits (digits / 8) (le_refl _)
    hok (fun h => absurd h (Nat.lt_irrefl _))
  simpa using h

theorem map_byte_call_at (u : Nat) (l : List Nat) :
    (l.map (call_at send_byte u st)).map Call.byte = l.map (byte_of u) := by
  simp [call_at, Function.comp_def]

/-- C1: when every `send_byte` call of the run succeeds, `send_uint(u)` on an
unsigned type of `N = digits / 8` bytes calls `send_byte` exactly `N` times,
call `i` receives `(u >> 8*i) & 0xFF` (least significant byte first), every
call returned `true` and the result is `true`; for the 4-byte value
`0x11223344` the bytes passed are `0x44, 0x33, 0x22, 0x11` in that order. -/
theorem send_uint_lsb_first (digits u : Nat)
    (hok : ∀ j, j < digits / 8 → outcome send_byte u st j = true) :
    (send_uint send_byte digits u st).2.calls.length = digits / 8 ∧
    (send_uint send_byte digits u st).2.calls.map Call.byte
      = (List.range (digits / 8)).map (fun i => (u >>> (8 * i)) &&& 0xFF) ∧
    (∀ c ∈ (send_uint send_byte digits u st).2.calls, c.ok = true) ∧
    (send_uint send_byte digits u st).1 = true ∧
    (digits = 32 → u = 0x11223344 →
      (send_uint send_byte digits u st).2.calls.map Call.byte = [0x44, 0x33, 0x22, 0x11]) := by
  rw [send_uint_all_ok send_byte st digits u hok]
  refine ⟨by simp, ?_, ?_, rfl, ?_⟩
  · simp only [map_byte_call_at]
    exact List.map_congr_left (fun i _ => byte_of_eq_and u i)
  · intro c hc
    simp only [List.mem_map, List.mem_range] at hc
    obtain ⟨j, hj, rfl⟩ := hc
    exact hok j hj
  · intro hN hu
    subst hN; subst hu
    simp only [map_byte_call_at]
    decide

theorem send_uint_lsb_first_witness :
    (∀ j, j < 4 → outcome (failing_at none) 0x11223344 0 j = true) ∧
    (send_uint (failing_at none) 32 0x11223344 0).2.calls.map Call.byte
      = [0x44, 0x33, 0x22, 0x11] ∧
    (send_uint (failing_at none) 32 0x11223344 0).1 = true :=
  ⟨by decide,
   (send_uint_lsb_first (failing_at none) 0 32 0x11223344 (by decide)).2.2.2.2 rfl rfl,
   (send_uint_lsb_first (failing_at none) 0 32 0x11223344 (by decide)).2.2.2.1⟩

/-- C2: for every unsigned type (`count = digits / 8` bytes), every value and
every behaviour of `send_byte`, `send_uint` returns `true` exactly when it made
all `count` calls and each of them returned `true`; equivalently, exactly when
the call for every byte index below `count` succeeds when it is made. -/
theorem send_uint_true_iff (digits u : Nat) :
    ((send_uint send_byte digits u st).1 = true ↔
      ((send_uint send_byte digits u st).2.calls.length = digits / 8 ∧
        ∀ c ∈ (send_uint send_byte digits u st).2.calls, c.ok = true)) ∧
    ((send_uint send_byte digits u st).1 = true ↔
      ∀ j, j < digits / 8 → outcome send_byte u st j = true) := by
  obtain ⟨k, hk, htrue, hfalse⟩ := first_failure send_byte u st (digits / 8)
  rw [send_uint_first_failure send_byte u st digits k hk htrue hfalse]
  by_cases hkc : k = digits / 8
  · subst hkc
    have hm : min (digits / 8 + 1) (digits / 8) = digits / 8 := by omega
    simp only [hm, beq_self_eq_true, List.length_map, List.length_range, true_and, true_iff]
    constructor
    · intro c hc
      simp only [List.mem_map, List.mem_range] at hc
      obtain ⟨j, hj, rfl⟩ := hc
      exact htrue j (by omega)
    · intro j hj
      exact htrue j (by omega)
  · have hlt : k < digits / 8 := by omega
    have hm : min (k + 1) (digits / 8) = k + 1 := by omega
    have hb : (k == digits / 8) = false := by simpa using hkc
    simp only [hm, hb, Bool.false_eq_true, false_iff, List.length_map, List.length_range]
    constructor
    · rintro ⟨_, hall⟩
      have h1 := hall (call_at send_byte u st k)
        (List.mem_map.mpr ⟨k, List.mem_range.mpr (by omega), rfl⟩)
      have h2 := hfalse hlt
      simp only [call_at] at h1
      rw [h2] at h1
      exact Bool.false_ne_true h1
    · intro hall
      have h1 := hall k hlt
      rw [hfalse hlt] at h1
      exact Bool.false_ne_true h1

/-- C3: if the call for byte index `k < N` (`N = digits / 8`) is the first
one that fails, `send_uint` makes exactly `k + 1` calls, one for each of the
byte indices `0 .. k` in order (so none for `k+1 .. N-1` and none twice), the
first `k` returned `true` and the last `false`, the channel is left as the
call for byte `k` left it, and the result is `false`. -/
theorem send_uint_stops_at_first_failure (digits u k : Nat) (hk : k < digits / 8)
    (htrue : ∀ j, j < k → outcome send_byte u st j = true)
    (hfalse : outcome send_byte u st k = false) :
    (send_uint send_byte digits u st).1 = false ∧
    (send_uint send_byte digits u st).2.calls.length = k + 1 ∧
    (send_uint send_byte digits u st).2.calls
      = (List.range (k + 1)).map (call_at send_byte u st) ∧
    (send_uint send_byte digits u st).2.calls.map Call.byte
      = (List.range (k + 1)).map (byte_of u) ∧
    (send_uint send_byte digits u st).2.calls.map Call.ok
      = List.replicate k true ++ [false] ∧
    (send_uint send_byte digits u st).2.chan = chan_after send_byte u st (k + 1) := by
  have h := send_uint_first_failure send_byte u st digits k (by omega) htrue (fun _ => hfalse)
  have hm : min (k + 1) (digits / 8) = k + 1 := by omega
  have hb : (k == digits / 8) = false := by
    have : k ≠ digits / 8 := by omega
    simpa using this
  rw [hm, hb] at h
  rw [h]
  refine ⟨rfl, by simp, rfl, map_byte_call_at send_byte st u _, ?_, rfl⟩
  simp only [List.range_succ, List.map_append, List.map_cons, List.map_nil, call_at, hfalse]
  congr 1
  apply List.ext_getElem
  · simp
  · intro i h1 h2
    simp only [List.length_map, List.length_range] at h1
    simp [call_at, htrue i h1]

theorem send_uint_stops_at_first_failure_witness :
    (2 < 32 / 8 ∧ (∀ j, j < 2 → outcome (failing_at (some 2)) 0x11223344 0 j = true) ∧
      outcome (failing_at (some 2)) 0x11223344 0 2 = false) ∧
    (send_uint (failing_at (some 2)) 32 0x11223344 0).1 = false ∧
    (send_uint (failing_at (some 2)) 32 0x11223344 0).2.calls.length = 3 :=
  ⟨⟨by decide, by decide, by decide⟩,
   (send_uint_stops_at_first_failure (failing_at (some 2)) 0 32 0x11223344 2
      (by decide) (by decide) (by decide)).1,
   (send_uint_stops_at_first_failure (failing_at (some 2)) 0 32 0x11223344 2
      (by decide) (by decide) (by decide)).2.1⟩

/-- C4: round trip.  For a value `u` of an `N`-byte unsigned type
(`digits = 8 * N`, `u < 2 ^ digits`), when all calls succeed, the `N` bytes
`b_0 .. b_(N-1)` that `send_uint(u)` passes to `send_byte` satisfy
`sum_i b_i * 256 ^ i = u`. -/
theorem send_uint_round_trip (digits N u : Nat) (hd : digits = 8 * N) (hu : u < 2 ^ digits)
    (hok : ∀ j, j < N → outcome send_byte u st j = true) :
    ((send_uint send_byte digits u st).2.calls.map Call.byte).length = N ∧
    reassemble ((send_uint send_byte digits u st).2.calls.map Call.byte) = u := by
  have hN : digits / 8 = N := by omega
  rw [send_uint_all_ok send_byte st digits u (by rw [hN]; exact hok), hN]
  simp only [map_byte_call_at]
  refine ⟨by simp, ?_⟩
  rw [reassemble_map_range, sum_bytes]
  apply Nat.mod_eq_of_lt
  have h : (256 : Nat) = 2 ^ 8 := by norm_num
  rw [h, ← pow_mul, ← hd]
  exact hu

theorem send_uint_round_trip_witness :
    ((32 : Nat) = 8 * 4 ∧ (0x11223344 : Nat) < 2 ^ 32 ∧
      ∀ j, j < 4 → outcome (failing_at none) 0x11223344 0 j = true) ∧
    reassemble ((send_uint (failing_at none) 32 0x11223344 0).2.calls.map Call.byte)
      = 0x11223344 :=
  ⟨⟨by decide, by decide, by decide⟩,
   (send_uint_round_trip (failing_at none) 0 32 4 0x11223344 (by decide) (by decide)
      (by decide)).2⟩

end claims

end communication

namespace mcal.pwm

section state

theorem write_all_eq (vs : List Nat) (s : pwm_board) :
    write_all vs s = ⟨s.resolution, s.counter, s.duty_cycle, (vs.getLast?).getD s.shadow⟩ := by
  induction vs generalizing s with
  | nil => rfl
  | cons v rest ih =>
    have h : write_all (v :: rest) s = write_all rest (write_shadow v s) := rfl
    rw [h, ih]
    simp [write_shadow, List.getLast?_cons]

theorem last_written_nil (v0 : Nat) : last_written v0 [] = v0 := rfl

theorem last_written_cons (v0 : Nat) (vs : List Nat) (ws : List (List Nat)) :
    last_written v0 (vs :: ws) = last_written ((vs.getLast?).getD v0) ws := by
  unfold last_written
  rw [List.flatten_cons, List.getLast?_append]
  cases h : ws.flatten.getLast? <;> simp

/-- A tick that stays inside the period: the counter advances, `duty_cycle` is
kept, and the pin call is decided by the old `duty_cycle`. -/
theorem tick_inside (w : Nat) (vs : List Nat) (s : pwm_board)
    (h : s.counter + 1 < s.resolution) (hw : s.resolution < 2 ^ w) :
    tick w vs s = (⟨s.resolution, s.counter + 1, s.duty_cycle, (vs.getLast?).getD s.shadow⟩,
      level s.duty_cycle (s.counter + 1)) := by
  have hm : (s.counter + 1) % 2 ^ w = s.counter + 1 := Nat.mod_eq_of_lt (by omega)
  have hn : ¬ (s.counter + 1 ≥ s.resolution) := by omega
  simp only [tick, write_all_eq, service, hm, hn, if_false, level]

/-- The tick that ends the period: the counter returns to 0 and `duty_cycle`
takes the value that `shadow` holds at this call. -/
theorem tick_wrap (w : Nat) (vs : List Nat) (s : pwm_board)
    (h : s.resolution ≤ s.counter + 1) (hw : s.counter + 1 < 2 ^ w) :
    tick w vs s = (⟨s.resolution, 0, (vs.getLast?).getD s.shadow, (vs.getLast?).getD s.shadow⟩,
      level s.duty_cycle (s.counter + 1)) := by
  have hm : (s.counter + 1) % 2 ^ w = s.counter + 1 := Nat.mod_eq_of_lt hw
  have hn : s.counter + 1 ≥ s.resolution := h
  simp only [tick, write_all_eq, service, hm, hn, if_true, level]

theorem run_cons (w : Nat) (vs : List Nat) (ws : List (List Nat)) (s : pwm_board) :
    run w (vs :: ws) s = ((run w ws (tick w vs s).1).1, (tick w vs s).2 :: (run w ws (tick w vs s).1).2) :=
  rfl

theorem run_append (w : Nat) (a b : List (List Nat)) (s : pwm_board) :
    run w (a ++ b) s = ((run w b (run w a s).1).1, (run w a s).2 ++ (run w b (run w a s).1).2) := by
  induction a generalizing s with
  | nil => rfl
  | cons vs rest ih => simp only [List.cons_append, run_cons, ih]

/-- Ticks that stay inside the period: from counter `c0`, `n` ticks with
`c0 + n < resolution`. -/
theorem run_inside (w : Nat) (ws : List (List Nat)) (s : pwm_board)
    (h : s.counter + ws.length < s.resolution) (hw : s.resolution < 2 ^ w) :
    run w ws s = (⟨s.resolution, s.counter + ws.length, s.duty_cycle, last_written s.shadow ws⟩,
      (List.range ws.length).map (fun k => level s.duty_cycle (s.counter + k + 1))) := by
  induction ws generalizing s with
  | nil => simp [run, last_written_nil]
  | cons vs rest ih =>
    have hl : (vs :: rest).length = rest.length + 1 := rfl
    rw [hl] at h
    rw [run_cons, tick_inside w vs s (by omega) hw]
    simp only []
    have hs := ih ⟨s.resolution, s.counter + 1, s.duty_cycle, (vs.getLast?).getD s.shadow⟩
      (by show s.counter + 1 + rest.length < s.resolution; omega) hw
    rw [hs]
    simp only [last_written_cons, hl, List.range_succ_eq_map, List.map_cons, List.map_map,
      Prod.mk.injEq, pwm_board.mk.injEq, true_and, and_true, Nat.add_zero]
    refine ⟨by omega, ?_⟩
    congr 1
    apply List.map_congr_left
    intro k _
    simp only [Function.comp_apply, Nat.succ_eq_add_one]
    congr 1
    omega

/-- One whole period from counter 0: `resolution` ticks. -/
theorem run_period (w : Nat) (ws : List (List Nat)) (s : pwm_board)
    (hc : s.counter = 0) (hr : 1 ≤ s.resolution) (hw : s.resolution < 2 ^ w)
    (hl : ws.length = s.resolution) :
    run w ws s = (⟨s.resolution, 0, last_written s.shadow ws, last_written s.shadow ws⟩,
      (List.range s.resolution).map (fun k => level s.duty_cycle (k + 1))) := by
  obtain ⟨init, vs, rfl⟩ : ∃ init vs, ws = init ++ [vs] := by
    have hne : ws ≠ [] := by
      intro h0
      rw [h0] at hl
      simp at hl
      omega
    exact ⟨ws.dropLast, ws.getLast hne, (List.dropLast_append_getLast hne).symm⟩
  simp only [List.length_append, List.length_singleton] at hl
  have hin := run_inside w init s (by omega) hw
  rw [run_append, hin]
  simp only [run_cons, run]
  have ht := tick_wrap w vs
    ⟨s.resolution, s.counter + init.length, s.duty_cycle, last_written s.shadow init⟩
    (by show s.resolution ≤ s.counter + init.length + 1; omega)
    (by show s.counter + init.length + 1 < 2 ^ w; omega)
  rw [ht]
  have hlw : last_written s.shadow (init ++ [vs])
      = (vs.getLast?).getD (last_written s.shadow init) := by
    unfold last_written
    rw [List.flatten_append, List.getLast?_append]
    cases h : vs.getLast? <;> simp [h]
  simp only [hlw, hc, Nat.zero_add, ← hl, List.range_succ, List.map_append, List.map_cons,
    List.map_nil, List.append_nil]

theorem tick_resolution (w : Nat) (vs : List Nat) (s : pwm_board) :
    (tick w vs s).1.resolution = s.resolution := by
  simp only [tick, write_all_eq, service]
  split <;> rfl

theorem tick_counter_lt (w : Nat) (vs : List Nat) (s : pwm_board) (hr : 1 ≤ s.resolution) :
    (tick w vs s).1.counter < s.resolution := by
  simp only [tick, write_all_eq, service]
  split
  · exact hr
  · simp only []
    omega

theorem run_resolution (w : Nat) (ws : List (List Nat)) (s : pwm_board) :
    (run w ws s).1.resolution = s.resolution := by
  induction ws generalizing s with
  | nil => rfl
  | cons vs rest ih => rw [run_cons]; simp only []; rw [ih, tick_resolution]

theorem tick_duty_le (w : Nat) (vs : List Nat) (s : pwm_board)
    (hd : s.duty_cycle ≤ s.resolution) (hs : s.shadow ≤ s.resolution)
    (hvs : ∀ v ∈ vs, v ≤ s.resolution) :
    (tick w vs s).1.duty_cycle ≤ s.resolution ∧ (tick w vs s).1.shadow ≤ s.resolution := by
  have hsh : (vs.getLast?).getD s.shadow ≤ s.resolution := by
    cases h : vs.getLast? with
    | none => exact hs
    | some v => exact hvs v (List.mem_of_getLast?_eq_some h)
  simp only [tick, write_all_eq, service]
  split
  · exact ⟨hsh, hsh⟩
  · exact ⟨hd, hsh⟩

end state

section claims

/-- C5: one `service()` call.  With `c` the incremented counter (`++counter` on
the `w`-bit `duty_type`, which is `counter + 1` unless `counter` is the largest
value of the type), the pin is driven high if `c <= duty_cycle` for the
`duty_cycle` held before the call and low otherwise; then, if
`c >= resolution`, `duty_cycle` becomes `shadow` and `counter` becomes 0,
otherwise `counter` becomes `c` and `duty_cycle` is unchanged; `resolution`
and `shadow` are never modified. -/
theorem service_transition (w : Nat) (s : pwm_board) :
    ((s.counter + 1) % 2 ^ w ≤ s.duty_cycle → (service w s).2 = PinCall.set_pin_high) ∧
    (¬ (s.counter + 1) % 2 ^ w ≤ s.duty_cycle → (service w s).2 = PinCall.set_pin_low) ∧
    ((s.counter + 1) % 2 ^ w ≥ s.resolution →
      (service w s).1.duty_cycle = s.shadow ∧ (service w s).1.counter = 0) ∧
    (¬ (s.counter + 1) % 2 ^ w ≥ s.resolution →
      (service w s).1.duty_cycle = s.duty_cycle ∧
      (service w s).1.counter = (s.counter + 1) % 2 ^ w) ∧
    (service w s).1.resolution = s.resolution ∧
    (service w s).1.shadow = s.shadow ∧
    (s.counter + 1 < 2 ^ w → (s.counter + 1) % 2 ^ w = s.counter + 1) := by
  refine ⟨?_, ?_, ?_, ?_, ?_, ?_, fun h => Nat.mod_eq_of_lt h⟩
  · intro h
    simp only [service, h, if_true]
  · intro h
    simp only [service, h, if_false]
  · intro h
    simp only [service, h, if_true, and_self]
  · intro h
    simp only [service, h, if_false, and_self]
  · simp only [service]
    split <;> rfl
  · simp only [service]
    split <;> rfl

/-- C6: for every resolution `r >= 1` and duty cycle `d`, starting from
`counter = 0`, the `k`-th of `r` consecutive `service()` calls (`k = 1..r`)
drives the pin high if and only if `k <= d`, whatever is stored to `shadow`
meanwhile; with `r = 9` and `d = 3` the nine levels are three times high and
six times low. -/
theorem service_period_levels (w : Nat) (ws : List (List Nat)) (s : pwm_board)
    (hc : s.counter = 0) (hr : 1 ≤ s.resolution) (hw : s.resolution < 2 ^ w)
    (hl : ws.length = s.resolution) :
    (run w ws s).2.length = s.resolution ∧
    (∀ k, 1 ≤ k → k ≤ s.resolution →
      ((run w ws s).2.get? (k - 1) = some PinCall.set_pin_high ↔ k ≤ s.duty_cycle) ∧
      ((run w ws s).2.get? (k - 1) = some PinCall.set_pin_low ↔ ¬ k ≤ s.duty_cycle)) ∧
    (s.resolution = 9 → s.duty_cycle = 3 →
      (run w ws s).2 =
        [PinCall.set_pin_high, PinCall.set_pin_high, PinCall.set_pin_high,
         PinCall.set_pin_low, PinCall.set_pin_low, PinCall.set_pin_low,
         PinCall.set_pin_low, PinCall.set_pin_low, PinCall.set_pin_low]) := by
  rw [run_period w ws s hc hr hw hl]
  refine ⟨by simp, ?_, ?_⟩
  · intro k h1 h2
    have hk : k - 1 < s.resolution := by omega
    have hk1 : k - 1 + 1 = k := by omega
    simp only [List.get?_eq_getElem?, List.getElem?_map, List.getElem?_range hk,
      Option.map_some', hk1, level, Option.some.injEq]
    by_cases hd : k ≤ s.duty_cycle
    · simp [hd]
    · simp [hd]
  · intro h9 h3
    rw [h9, h3]
    rfl

theorem service_period_levels_witness :
    ((⟨9, 0, 3, 3⟩ : pwm_board).counter = 0 ∧ 1 ≤ (⟨9, 0, 3, 3⟩ : pwm_board).resolution ∧
      (⟨9, 0, 3, 3⟩ : pwm_board).resolution < 2 ^ 16 ∧
      (idle 9).length = (⟨9, 0, 3, 3⟩ : pwm_board).resolution) ∧
    (run 16 (idle 9) ⟨9, 0, 3, 3⟩).2 =
        [PinCall.set_pin_high, PinCall.set_pin_high, PinCall.set_pin_high,
         PinCall.set_pin_low, PinCall.set_pin_low, PinCall.set_pin_low,
         PinCall.set_pin_low, PinCall.set_pin_low, PinCall.set_pin_low] :=
  ⟨⟨rfl, by decide, by decide, rfl⟩,
   (service_period_levels 16 (idle 9) ⟨9, 0, 3, 3⟩ rfl (by decide) (by decide) rfl).2.2 rfl rfl⟩

/-- C7: glitch-free duty update.  Two runs of one period from the same state
with `counter = 0` that differ only in what is stored to `shadow` between the
`service()` calls produce the same pin levels in that period (those of the
starting `duty_cycle`); the stores decide the levels of the next period only,
which are those of the value `shadow` holds at the wrap.  With resolution 9,
duty cycle 3 and `shadow` set to 6 after tick 5, ticks 6..9 stay low and the
next period is high for ticks 1..6 and low for ticks 7..9. -/
theorem shadow_write_glitch_free (w : Nat) (ws1 ws2 next : List (List Nat)) (s : pwm_board)
    (hc : s.counter = 0) (hr : 1 ≤ s.resolution) (hw : s.resolution < 2 ^ w)
    (h1 : ws1.length = s.resolution) (h2 : ws2.length = s.resolution)
    (hn : next.length = s.resolution) :
    (run w ws1 s).2 = (run w ws2 s).2 ∧
    (run w ws1 s).2 = (List.range s.resolution).map (fun k => level s.duty_cycle (k + 1)) ∧
    (run w next (run w ws1 s).1).2
      = (List.range s.resolution).map (fun k => level (last_written s.shadow ws1) (k + 1)) ∧
    (run 16 (idle 5 ++ [[6]] ++ idle 3 ++ idle 9) ⟨9, 0, 3, 3⟩).2 =
        [PinCall.set_pin_high, PinCall.set_pin_high, PinCall.set_pin_high,
         PinCall.set_pin_low, PinCall.set_pin_low, PinCall.set_pin_low,
         PinCall.set_pin_low, PinCall.set_pin_low, PinCall.set_pin_low,
         PinCall.set_pin_high, PinCall.set_pin_high, PinCall.set_pin_high,
         PinCall.set_pin_high, PinCall.set_pin_high, PinCall.set_pin_high,
         PinCall.set_pin_low, PinCall.set_pin_low, PinCall.set_pin_low] := by
  have hp1 := run_period w ws1 s hc hr hw h1
  have hp2 := run_period w ws2 s hc hr hw h2
  have hp3 := run_period w next
    ⟨s.resolution, 0, last_written s.shadow ws1, last_written s.shadow ws1⟩ rfl hr hw hn
  rw [hp1, hp2]
  refine ⟨rfl, rfl, ?_, by decide⟩
  simp only []
  rw [hp3]

theorem shadow_write_glitch_free_witness :
    ((⟨9, 0, 3, 3⟩ : pwm_board).counter = 0 ∧ 1 ≤ (⟨9, 0, 3, 3⟩ : pwm_board).resolution ∧
      (⟨9, 0, 3, 3⟩ : pwm_board).resolution < 2 ^ 16 ∧
      (idle 5 ++ [[6]] ++ idle 3).length = 9 ∧ (idle 9).length = 9) ∧
    (run 16 (idle 5 ++ [[6]] ++ idle 3) ⟨9, 0, 3, 3⟩).2 = (run 16 (idle 9) ⟨9, 0, 3, 3⟩).2 ∧
    (run 16 (idle 9) (run 16 (idle 5 ++ [[6]] ++ idle 3) ⟨9, 0, 3, 3⟩).1).2
      = (List.range 9).map (fun k => level 6 (k + 1)) :=
  ⟨⟨rfl, by decide, by decide, rfl, rfl⟩,
   (shadow_write_glitch_free 16 (idle 5 ++ [[6]] ++ idle 3) (idle 9) (idle 9) ⟨9, 0, 3, 3⟩
      rfl (by decide) (by decide) (by decide) (by decide) (by decide)).1,
   (shadow_write_glitch_free 16 (idle 5 ++ [[6]] ++ idle 3) (idle 9) (idle 9) ⟨9, 0, 3, 3⟩
      rfl (by decide) (by decide) (by decide) (by decide) (by decide)).2.2.1⟩

/-- C8: for every resolution `r >= 1`, starting from `counter = 0`: after
`k < r` `service()` calls `counter` equals `k` and `duty_cycle` still has its
initial value; after exactly `r` calls `counter` is 0 and `duty_cycle` equals
the value that `shadow` held when the `r`-th call ran. -/
theorem counter_wraps_at_resolution (w : Nat) (s : pwm_board)
    (hc : s.counter = 0) (hr : 1 ≤ s.resolution) (hw : s.resolution < 2 ^ w) :
    (∀ ws : List (List Nat), ws.length < s.resolution →
      (run w ws s).1.counter = ws.length ∧ (run w ws s).1.duty_cycle = s.duty_cycle) ∧
    (∀ (ws : List (List Nat)) (vs : List Nat), ws.length + 1 = s.resolution →
      (run w (ws ++ [vs]) s).1.counter = 0 ∧
      (run w (ws ++ [vs]) s).1.duty_cycle = (write_all vs (run w ws s).1).shadow) := by
  constructor
  · intro ws hlt
    rw [run_inside w ws s (by omega) hw]
    simp only [hc, Nat.zero_add, and_self]
  · intro ws vs hl
    have hlen : (ws ++ [vs]).length = s.resolution := by
      rw [List.length_append, List.length_singleton]
      exact hl
    rw [run_period w (ws ++ [vs]) s hc hr hw hlen]
    rw [run_inside w ws s (by omega) hw, write_all_eq]
    simp only [true_and]
    unfold last_written
    rw [List.flatten_append, List.getLast?_append]
    cases h : vs.getLast? <;> simp [h]

theorem counter_wraps_at_resolution_witness :
    ((⟨9, 0, 3, 3⟩ : pwm_board).counter = 0 ∧ 1 ≤ (⟨9, 0, 3, 3⟩ : pwm_board).resolution ∧
      (⟨9, 0, 3, 3⟩ : pwm_board).resolution < 2 ^ 16) ∧
    (run 16 (idle 5 ++ [[6]] ++ idle 2) ⟨9, 0, 3, 3⟩).1.counter = 8 ∧
    (run 16 (idle 5 ++ [[6]] ++ idle 2) ⟨9, 0, 3, 3⟩).1.duty_cycle = 3 ∧
    (run 16 ((idle 5 ++ [[6]] ++ idle 2) ++ [[7]]) ⟨9, 0, 3, 3⟩).1.counter = 0 ∧
    (run 16 ((idle 5 ++ [[6]] ++ idle 2) ++ [[7]]) ⟨9, 0, 3, 3⟩).1.duty_cycle = 7 :=
  ⟨⟨rfl, by decide, by decide⟩,
   ((counter_wraps_at_resolution 16 ⟨9, 0, 3, 3⟩ rfl (by decide) (by decide)).1
      (idle 5 ++ [[6]] ++ idle 2) (by decide)).1,
   ((counter_wraps_at_resolution 16 ⟨9, 0, 3, 3⟩ rfl (by decide) (by decide)).1
      (idle 5 ++ [[6]] ++ idle 2) (by decide)).2,
   ((counter_wraps_at_resolution 16 ⟨9, 0, 3, 3⟩ rfl (by decide) (by decide)).2
      (idle 5 ++ [[6]] ++ idle 2) [7] (by decide)).1,
   ((counter_wraps_at_resolution 16 ⟨9, 0, 3, 3⟩ rfl (by decide) (by decide)).2
      (idle 5 ++ [[6]] ++ idle 2) [7] (by decide)).2⟩

/-- C9: counter invariant.  For every resolution `>= 1` and every state, after
a `service()` call `counter < resolution`, and the same holds after every
later `service()` call, whatever is stored to `shadow` in between
(`resolution` itself never changes). -/
theorem counter_lt_resolution (w : Nat) (s : pwm_board) (hr : 1 ≤ s.resolution) :
    (service w s).1.counter < s.resolution ∧
    (∀ ws : List (List Nat), ws ≠ [] →
      (run w ws s).1.counter < s.resolution ∧ (run w ws s).1.resolution = s.resolution) := by
  constructor
  · exact tick_counter_lt w [] s hr
  · intro ws
    induction ws generalizing s with
    | nil => intro h; exact absurd rfl h
    | cons vs rest ih =>
      intro _
      refine ⟨?_, run_resolution w _ s⟩
      rw [run_cons]
      simp only []
      cases rest with
      | nil => exact tick_counter_lt w vs s hr
      | cons vs2 rest2 =>
        have h := (ih (tick w vs s).1 (by rw [tick_resolution]; exact hr)
          (List.cons_ne_nil vs2 rest2)).1
        rw [tick_resolution] at h
        exact h

theorem counter_lt_resolution_witness :
    (1 ≤ (⟨9, 65535, 3, 3⟩ : pwm_board).resolution) ∧
    (service 16 ⟨9, 65535, 3, 3⟩).1.counter < 9 ∧
    (run 16 (idle 20) ⟨9, 65535, 3, 3⟩).1.counter < 9 :=
  ⟨by decide,
   (counter_lt_resolution 16 ⟨9, 65535, 3, 3⟩ (by decide)).1,
   ((counter_lt_resolution 16 ⟨9, 65535, 3, 3⟩ (by decide)).2 (idle 20) (by decide)).1⟩

/-- C10: duty invariant.  If the initial `duty_cycle` is `<= resolution` and
every value that `shadow` holds (the one it starts with and every value the
owner stores later) is `<= resolution`, then `duty_cycle <= resolution` after
every `service()` call. -/
theorem duty_cycle_le_resolution (w : Nat) (ws : List (List Nat)) (s : pwm_board)
    (hd : s.duty_cycle ≤ s.resolution) (hs : s.shadow ≤ s.resolution)
    (hws : ∀ vs ∈ ws, ∀ v ∈ vs, v ≤ s.resolution) :
    (run w ws s).1.duty_cycle ≤ s.resolution := by
  induction ws generalizing s with
  | nil => exact hd
  | cons vs rest ih =>
    have ht := tick_duty_le w vs s hd hs (hws vs (List.mem_cons_self vs rest))
    have hres := tick_resolution w vs s
    rw [run_cons]
    simp only []
    have h := ih (tick w vs s).1 (by rw [hres]; exact ht.1) (by rw [hres]; exact ht.2)
      (by rw [hres]; exact fun vs2 h2 => hws vs2 (List.mem_cons_of_mem vs h2))
    rw [hres] at h
    exact h

theorem duty_cycle_le_resolution_witness :
    ((⟨9, 0, 3, 3⟩ : pwm_board).duty_cycle ≤ 9 ∧ (⟨9, 0, 3, 3⟩ : pwm_board).shadow ≤ 9 ∧
      ∀ vs ∈ idle 5 ++ [[6]] ++ idle 3 ++ [[9]] ++ idle 9, ∀ v ∈ vs, v ≤ 9) ∧
    (run 16 (idle 5 ++ [[6]] ++ idle 3 ++ [[9]] ++ idle 9) ⟨9, 0, 3, 3⟩).1.duty_cycle ≤ 9 :=
  ⟨⟨by decide, by decide, by decide⟩,
   duty_cycle_le_resolution 16 (idle 5 ++ [[6]] ++ idle 3 ++ [[9]] ++ idle 9) ⟨9, 0, 3, 3⟩
     (by decide) (by decide) (by decide)⟩

end claims

end mcal.pwm

namespace mcal.reg

section bits

theorem bit_mask_eq (rw bpos : Nat) (h : bpos < rw) : bit_mask rw bpos = 2 ^ bpos := by
  rw [bit_mask, Nat.one_shiftLeft]
  exact Nat.mod_eq_of_lt (Nat.pow_lt_pow_right (by decide) h)

theorem testBit_bit_mask (rw bpos i : Nat) :
    (bit_mask rw bpos).testBit i = (decide (i < rw) && decide (bpos = i)) := by
  rw [bit_mask, Nat.one_shiftLeft, Nat.testBit_mod_two_pow, Nat.testBit_two_pow]

theorem testBit_bit_complement (rw m i : Nat) :
    (bit_complement rw m).testBit i = (decide (i < rw) != m.testBit i) := by
  rw [bit_complement, Nat.testBit_xor, Nat.testBit_two_pow_sub_one]

theorem bit_set_same (rw addr bpos : Nat) (rf : reg_file) :
    reg_access_static.bit_set rw addr bpos rf addr = (rf addr ||| bit_mask rw bpos) := by
  simp [reg_access_static.bit_set]

theorem bit_clr_same (rw addr bpos : Nat) (rf : reg_file) :
    reg_access_static.bit_clr rw addr bpos rf addr
      = (rf addr &&& bit_complement rw (bit_mask rw bpos)) := by
  simp [reg_access_static.bit_clr]

theorem bit_not_same (rw addr bpos : Nat) (rf : reg_file) :
    reg_access_static.bit_not rw addr bpos rf addr = (rf addr ^^^ bit_mask rw bpos) := by
  simp [reg_access_static.bit_not]

theorem bit_set_other (rw addr bpos a : Nat) (rf : reg_file) (h : a ≠ addr) :
    reg_access_static.bit_set rw addr bpos rf a = rf a := by
  simp [reg_access_static.bit_set, Function.update_noteq h]

theorem bit_clr_other (rw addr bpos a : Nat) (rf : reg_file) (h : a ≠ addr) :
    reg_access_static.bit_clr rw addr bpos rf a = rf a := by
  simp [reg_access_static.bit_clr, Function.update_noteq h]

theorem bit_not_other (rw addr bpos a : Nat) (rf : reg_file) (h : a ≠ addr) :
    reg_access_static.bit_not rw addr bpos rf a = rf a := by
  simp [reg_access_static.bit_not, Function.update_noteq h]

/-- After `bit_set` the bit `bpos < rw` is 1 and the other bits are as before. -/
theorem testBit_bit_set (rw addr bpos i : Nat) (rf : reg_file) (h : bpos < rw) :
    (reg_access_static.bit_set rw addr bpos rf addr).testBit i
      = (if i = bpos then true else (rf addr).testBit i) := by
  rw [bit_set_same, Nat.testBit_or, testBit_bit_mask]
  by_cases hi : i = bpos
  · subst hi
    simp [h]
  · have hne : ¬ bpos = i := fun e => hi e.symm
    simp [hi, hne]

/-- After `bit_clr` the bit `bpos` is 0 and the other bits of a `rw`-bit
register value are as before. -/
theorem testBit_bit_clr (rw addr bpos i : Nat) (rf : reg_file) (h : bpos < rw)
    (hv : rf addr < 2 ^ rw) :
    (reg_access_static.bit_clr rw addr bpos rf addr).testBit i
      = (if i = bpos then false else (rf addr).testBit i) := by
  rw [bit_clr_same, Nat.testBit_and, testBit_bit_complement, testBit_bit_mask]
  by_cases hi : i = bpos
  · subst hi
    simp [h]
  · have hne : ¬ bpos = i := fun e => hi e.symm
    by_cases hlt : i < rw
    · simp [hi, hne, hlt]
    · have hz : (rf addr).testBit i = false :=
        Nat.testBit_lt_two_pow (lt_of_lt_of_le hv (Nat.pow_le_pow_right (by decide) (by omega)))
      simp [hi, hz]

/-- After `bit_not` the bit `bpos < rw` is inverted and the other bits are as
before. -/
theorem testBit_bit_not (rw addr bpos i : Nat) (rf : reg_file) (h : bpos < rw) :
    (reg_access_static.bit_not rw addr bpos rf addr).testBit i
      = (if i = bpos then !(rf addr).testBit i else (rf addr).testBit i) := by
  rw [bit_not_same, Nat.testBit_xor, testBit_bit_mask]
  by_cases hi : i = bpos
  · subst hi
    simp [h]
  · have hne : ¬ bpos = i := fun e => hi e.symm
    simp [hi, hne]

theorem bit_set_idem (rw addr bpos : Nat) (rf : reg_file) :
    reg_access_static.bit_set rw addr bpos (reg_access_static.bit_set rw addr bpos rf)
      = reg_access_static.bit_set rw addr bpos rf := by
  funext a
  by_cases ha : a = addr
  · subst ha
    rw [bit_set_same, bit_set_same, Nat.lor_assoc, Nat.or_self]
  · rw [bit_set_other _ _ _ _ _ ha, bit_set_other _ _ _ _ _ ha]

theorem bit_clr_idem (rw addr bpos : Nat) (rf : reg_file) :
    reg_access_static.bit_clr rw addr bpos (reg_access_static.bit_clr rw addr bpos rf)
      = reg_access_static.bit_clr rw addr bpos rf := by
  funext a
  by_cases ha : a = addr
  · subst ha
    rw [bit_clr_same, bit_clr_same, Nat.land_assoc, Nat.and_self]
  · rw [bit_clr_other _ _ _ _ _ ha, bit_clr_other _ _ _ _ _ ha]

theorem bit_not_twice (rw addr bpos : Nat) (rf : reg_file) :
    reg_access_static.bit_not rw addr bpos (reg_access_static.bit_not rw addr bpos rf) = rf := by
  funext a
  by_cases ha : a = addr
  · subst ha
    rw [bit_not_same, bit_not_same, Nat.xor_assoc, Nat.xor_self, Nat.xor_zero]
  · rw [bit_not_other _ _ _ _ _ ha, bit_not_other _ _ _ _ _ ha]

/-- Applying an idempotent operation `n + 1` times is applying it once. -/
theorem iterate_idem {α : Type} (f : α → α) (hf : ∀ x, f (f x) = f x) (n : Nat) (x : α) :
    Nat.iterate f (n + 1) x = f x := by
  induction n generalizing x with
  | zero => rfl
  | succ k ih =>
    have h : Nat.iterate f (k + 1 + 1) x = Nat.iterate f (k + 1) (f x) := rfl
    rw [h, ih, hf]

end bits

end mcal.reg

namespace mcal.pwm

section shadow_range

/-- C11: `service()` does not validate `shadow`.  If `shadow` holds a value
greater than `resolution` at the `service()` call at which the counter wraps,
that value becomes `duty_cycle` unchanged, and every `service()` call of the
following period drives the pin high, whatever is stored to `shadow` during
that period. -/
theorem shadow_above_resolution_latched (w : Nat) (vs : List Nat) (next : List (List Nat))
    (s : pwm_board) (hr : 1 ≤ s.resolution) (hw : s.resolution < 2 ^ w)
    (hwrap : s.counter + 1 = s.resolution)
    (hv : s.resolution < (write_all vs s).shadow)
    (hn : next.length = s.resolution) :
    (tick w vs s).1.duty_cycle = (write_all vs s).shadow ∧
    (tick w vs s).1.counter = 0 ∧
    (run w next (tick w vs s).1).2 = List.replicate s.resolution PinCall.set_pin_high ∧
    (∀ c ∈ (run w next (tick w vs s).1).2, c ≠ PinCall.set_pin_low) := by
  have ht := tick_wrap w vs s (by omega) (by omega)
  have hsh : (write_all vs s).shadow = (vs.getLast?).getD s.shadow := by rw [write_all_eq]
  rw [hsh] at hv
  have hp := run_period w next
    ⟨s.resolution, 0, (vs.getLast?).getD s.shadow, (vs.getLast?).getD s.shadow⟩ rfl hr hw hn
  have hlev : (List.range s.resolution).map
      (fun k => level ((vs.getLast?).getD s.shadow) (k + 1))
      = List.replicate s.resolution PinCall.set_pin_high := by
    apply List.ext_getElem
    · simp
    · intro i h1 _
      simp only [List.length_map, List.length_range] at h1
      have hle : i + 1 ≤ (vs.getLast?).getD s.shadow := by omega
      simp [level, hle]
  have h1 : (tick w vs s).1
      = ⟨s.resolution, 0, (vs.getLast?).getD s.shadow, (vs.getLast?).getD s.shadow⟩ := by
    rw [ht]
  have h2 : (run w next (tick w vs s).1).2
      = List.replicate s.resolution PinCall.set_pin_high := by
    rw [h1, hp]
    exact hlev
  refine ⟨by rw [h1, hsh], by rw [h1], h2, ?_⟩
  intro c hc
  rw [h2] at hc
  rw [List.eq_of_mem_replicate hc]
  decide

theorem shadow_above_resolution_latched_witness :
    (1 ≤ (⟨9, 8, 3, 3⟩ : pwm_board).resolution ∧
      (⟨9, 8, 3, 3⟩ : pwm_board).resolution < 2 ^ 16 ∧
      (⟨9, 8, 3, 3⟩ : pwm_board).counter + 1 = 9 ∧
      9 < (write_all [20] ⟨9, 8, 3, 3⟩).shadow ∧ (idle 9).length = 9) ∧
    (tick 16 [20] ⟨9, 8, 3, 3⟩).1.duty_cycle = 20 ∧
    (run 16 (idle 9) (tick 16 [20] ⟨9, 8, 3, 3⟩).1).2
      = List.replicate 9 PinCall.set_pin_high :=
  ⟨⟨by decide, by decide, by decide, by decide, by decide⟩,
   (shadow_above_resolution_latched 16 [20] (idle 9) ⟨9, 8, 3, 3⟩
      (by decide) (by decide) (by decide) (by decide) (by decide)).1,
   (shadow_above_resolution_latched 16 [20] (idle 9) ⟨9, 8, 3, 3⟩
      (by decide) (by decide) (by decide) (by decide) (by decide)).2.2.1⟩

end shadow_range

end mcal.pwm

namespace am335x.port_pin

open mcal.reg

section addresses

theorem mod_add_ne (m p a d : Nat) (hd : 0 < d) (hm : d < m) :
    (p + a) % m ≠ (p + (a + d)) % m := by
  intro h
  have h1 := Nat.sub_mod_eq_zero_of_mod_eq h.symm
  have h2 : p + (a + d) - (p + a) = d := by omega
  rw [h2, Nat.mod_eq_of_lt hm] at h1
  omega

theorem two_pow_ge (aw : Nat) (h : 8 ≤ aw) : 256 ≤ 2 ^ aw := by
  have h1 : 2 ^ 8 ≤ 2 ^ aw := Nat.pow_le_pow_right (by decide) h
  have h2 : (2 : Nat) ^ 8 = 256 := by norm_num
  omega

theorem pdir_ne_pval (aw port : Nat) (h : 8 ≤ aw) : pdir aw port ≠ pval aw port := by
  have hm := two_pow_ge aw h
  exact mod_add_ne (2 ^ aw) port 0x0134 8 (by decide) (by omega)

theorem pdir_ne_pinp (aw port : Nat) (h : 8 ≤ aw) : pdir aw port ≠ pinp aw port := by
  have hm := two_pow_ge aw h
  exact mod_add_ne (2 ^ aw) port 0x0134 4 (by decide) (by omega)

theorem pinp_ne_pval (aw port : Nat) (h : 8 ≤ aw) : pinp aw port ≠ pval aw port := by
  have hm := two_pow_ge aw h
  exact mod_add_ne (2 ^ aw) port 0x0138 4 (by decide) (by omega)

end addresses

section construction

/-- C12: the constructor of `pwm_board` calls `set_pin_low()` and then
`set_direction_output()` and nothing else, and leaves the members as the base
class set them.  With the AM335x `port_pin` as `port_pin_type` (bit position
inside the register, address type of at least 8 bits), whatever the register
file held before, the output-value bit is 0 (low) and the direction bit is 0
(output) afterwards, before any `service()` call. -/
theorem pwm_board_construct_low_output (aw rw port bpos : Nat) (base : mcal.pwm.pwm_board)
    (rf : reg_file) (hb : bpos < rw) (haw : 8 ≤ aw) :
    (mcal.pwm.pwm_board.construct base).2
      = [mcal.pwm.PinCall.set_pin_low, mcal.pwm.PinCall.set_direction_output] ∧
    (mcal.pwm.pwm_board.construct base).1 = base ∧
    call_all aw rw port bpos (mcal.pwm.pwm_board.construct base).2 rf
      = set_direction_output aw rw port bpos (set_pin_low aw rw port bpos rf) ∧
    reg_access_static.bit_get rw (pval aw port) bpos
      (call_all aw rw port bpos (mcal.pwm.pwm_board.construct base).2 rf) = false ∧
    reg_access_static.bit_get rw (pdir aw port) bpos
      (call_all aw rw port bpos (mcal.pwm.pwm_board.construct base).2 rf) = false := by
  have hcalls : call_all aw rw port bpos (mcal.pwm.pwm_board.construct base).2 rf
      = set_direction_output aw rw port bpos (set_pin_low aw rw port bpos rf) := rfl
  refine ⟨rfl, rfl, hcalls, ?_, ?_⟩
  · rw [hcalls, reg_access_static.bit_get, set_direction_output,
      bit_clr_other _ _ _ _ _ (pdir_ne_pval aw port haw).symm, set_pin_low, bit_clr_same,
      Nat.testBit_and, testBit_bit_complement, testBit_bit_mask]
    simp [hb]
  · rw [hcalls, reg_access_static.bit_get, set_direction_output, bit_clr_same,
      Nat.testBit_and, testBit_bit_complement, testBit_bit_mask]
    simp [hb]

theorem pwm_board_construct_low_output_witness :
    (21 < 32 ∧ 8 ≤ 32) ∧
    reg_access_static.bit_get 32 (pval 32 0x4804C000) 21
      (call_all 32 32 0x4804C000 21 (mcal.pwm.pwm_board.construct ⟨100, 0, 0, 0⟩).2
        (fun _ => 0xFFFFFFFF)) = false ∧
    reg_access_static.bit_get 32 (pdir 32 0x4804C000) 21
      (call_all 32 32 0x4804C000 21 (mcal.pwm.pwm_board.construct ⟨100, 0, 0, 0⟩).2
        (fun _ => 0xFFFFFFFF)) = false :=
  ⟨⟨by decide, by decide⟩,
   (pwm_board_construct_low_output 32 32 0x4804C000 21 ⟨100, 0, 0, 0⟩ (fun _ => 0xFFFFFFFF)
      (by decide) (by decide)).2.2.2.1,
   (pwm_board_construct_low_output 32 32 0x4804C000 21 ⟨100, 0, 0, 0⟩ (fun _ => 0xFFFFFFFF)
      (by decide) (by decide)).2.2.2.2⟩

end construction

end am335x.port_pin

namespace am335x.port_pin

open mcal.reg

section pins

/-- C13: for the AM335x `port_pin<addr_type, reg_type, port, bpos>` (bit
position inside the `rw`-bit register) and every register file: after
`set_pin_high()` bit `bpos` of the output-value register `pval` (address
`port + 0x013C`) is 1, after `set_pin_low()` it is 0, in both cases every other
bit of that register and every other register is unchanged, and reading the
output-value bit back after `set_pin_high()` gives `true`. -/
theorem set_pin_high_low_effect (aw rw port bpos : Nat) (rf : reg_file) (hb : bpos < rw)
    (hv : rf (pval aw port) < 2 ^ rw) :
    (set_pin_high aw rw port bpos rf (pval aw port)).testBit bpos = true ∧
    (set_pin_low aw rw port bpos rf (pval aw port)).testBit bpos = false ∧
    (∀ i, i ≠ bpos →
      (set_pin_high aw rw port bpos rf (pval aw port)).testBit i
        = (rf (pval aw port)).testBit i ∧
      (set_pin_low aw rw port bpos rf (pval aw port)).testBit i
        = (rf (pval aw port)).testBit i) ∧
    (∀ a, a ≠ pval aw port →
      set_pin_high aw rw port bpos rf a = rf a ∧ set_pin_low aw rw port bpos rf a = rf a) ∧
    reg_access_static.bit_get rw (pval aw port) bpos (set_pin_high aw rw port bpos rf) = true ∧
    (port + 0x013C < 2 ^ aw → pval aw port = port + 0x013C) := by
  refine ⟨?_, ?_, ?_, ?_, ?_, fun h => Nat.mod_eq_of_lt h⟩
  · rw [set_pin_high, testBit_bit_set _ _ _ _ _ hb, if_pos rfl]
  · rw [set_pin_low, testBit_bit_clr _ _ _ _ _ hb hv, if_pos rfl]
  · intro i hi
    rw [set_pin_high, set_pin_low, testBit_bit_set _ _ _ _ _ hb,
      testBit_bit_clr _ _ _ _ _ hb hv, if_neg hi, if_neg hi]
    exact ⟨rfl, rfl⟩
  · intro a ha
    exact ⟨bit_set_other _ _ _ _ _ ha, bit_clr_other _ _ _ _ _ ha⟩
  · rw [reg_access_static.bit_get, set_pin_high, testBit_bit_set _ _ _ _ _ hb, if_pos rfl]

theorem set_pin_high_low_effect_witness :
    (21 < 32 ∧ (fun _ => 0x00A00005 : reg_file) (pval 32 0x4804C000) < 2 ^ 32) ∧
    (set_pin_high 32 32 0x4804C000 21 (fun _ => 0x00A00005) (pval 32 0x4804C000)).testBit 21
      = true ∧
    (set_pin_low 32 32 0x4804C000 21 (fun _ => 0x00A00005) (pval 32 0x4804C000)).testBit 21
      = false :=
  ⟨⟨by decide, by decide⟩,
   (set_pin_high_low_effect 32 32 0x4804C000 21 (fun _ => 0x00A00005)
      (by decide) (by decide)).1,
   (set_pin_high_low_effect 32 32 0x4804C000 21 (fun _ => 0x00A00005)
      (by decide) (by decide)).2.1⟩

/-- C14: for the AM335x `port_pin` (bit position inside the register) and
every register file, `toggle_pin()` inverts bit `bpos` of the output-value
register and changes no other bit and no other register, and `toggle_pin()`
applied twice restores the whole register file. -/
theorem toggle_pin_flips (aw rw port bpos : Nat) (rf : reg_file) (hb : bpos < rw) :
    (toggle_pin aw rw port bpos rf (pval aw port)).testBit bpos
      = !(rf (pval aw port)).testBit bpos ∧
    (∀ i, i ≠ bpos →
      (toggle_pin aw rw port bpos rf (pval aw port)).testBit i
        = (rf (pval aw port)).testBit i) ∧
    (∀ a, a ≠ pval aw port → toggle_pin aw rw port bpos rf a = rf a) ∧
    toggle_pin aw rw port bpos (toggle_pin aw rw port bpos rf) = rf := by
  refine ⟨?_, ?_, ?_, bit_not_twice _ _ _ rf⟩
  · rw [toggle_pin, testBit_bit_not _ _ _ _ _ hb, if_pos rfl]
  · intro i hi
    rw [toggle_pin, testBit_bit_not _ _ _ _ _ hb, if_neg hi]
  · intro a ha
    exact bit_not_other _ _ _ _ _ ha

theorem toggle_pin_flips_witness :
    (21 < 32) ∧
    (toggle_pin 32 32 0x4804C000 21 (fun _ => 0x00A00005) (pval 32 0x4804C000)).testBit 21
      = !((fun _ => 0x00A00005 : reg_file) (pval 32 0x4804C000)).testBit 21 ∧
    toggle_pin 32 32 0x4804C000 21 (toggle_pin 32 32 0x4804C000 21 (fun _ => 0x00A00005))
      = (fun _ => 0x00A00005) :=
  ⟨by decide,
   (toggle_pin_flips 32 32 0x4804C000 21 (fun _ => 0x00A00005) (by decide)).1,
   (toggle_pin_flips 32 32 0x4804C000 21 (fun _ => 0x00A00005) (by decide)).2.2.2⟩

/-- C15: idempotence.  For the AM335x `port_pin`, every register file and every
`N >= 1`, calling `set_pin_high()` `N` times in a row leaves the register file
as calling it once does; the same holds for `set_pin_low()`,
`set_direction_output()` and `set_direction_input()`. -/
theorem pin_calls_idempotent (aw rw port bpos N : Nat) (rf : reg_file) (hN : 1 ≤ N) :
    Nat.iterate (set_pin_high aw rw port bpos) N rf = set_pin_high aw rw port bpos rf ∧
    Nat.iterate (set_pin_low aw rw port bpos) N rf = set_pin_low aw rw port bpos rf ∧
    Nat.iterate (set_direction_output aw rw port bpos) N rf
      = set_direction_output aw rw port bpos rf ∧
    Nat.iterate (set_direction_input aw rw port bpos) N rf
      = set_direction_input aw rw port bpos rf := by
  obtain ⟨n, rfl⟩ : ∃ n, N = n + 1 := ⟨N - 1, by omega⟩
  exact ⟨iterate_idem _ (fun x => bit_set_idem _ _ _ x) n rf,
    iterate_idem _ (fun x => bit_clr_idem _ _ _ x) n rf,
    iterate_idem _ (fun x => bit_clr_idem _ _ _ x) n rf,
    iterate_idem _ (fun x => bit_set_idem _ _ _ x) n rf⟩

theorem pin_calls_idempotent_witness :
    (1 ≤ 3) ∧
    set_pin_high 32 32 0x4804C000 21 (set_pin_high 32 32 0x4804C000 21
        (set_pin_high 32 32 0x4804C000 21 (fun _ => 0x00A00005)))
      = set_pin_high 32 32 0x4804C000 21 (fun _ => 0x00A00005) :=
  ⟨by decide, (pin_calls_idempotent 32 32 0x4804C000 21 3 (fun _ => 0x00A00005) (by decide)).1⟩

/-- C16: for the AM335x `port_pin` the direction convention is clear = output:
`set_direction_output()` clears and `set_direction_input()` sets bit `bpos` of
the direction register `pdir` (address `port + 0x0134`), and both leave the
output-value register (`port + 0x013C`), the input register (`port + 0x0138`),
every other register and all other bits of the direction register unchanged. -/
theorem set_direction_effect (aw rw port bpos : Nat) (rf : reg_file) (hb : bpos < rw)
    (haw : 8 ≤ aw) (hv : rf (pdir aw port) < 2 ^ rw) :
    (set_direction_output aw rw port bpos rf (pdir aw port)).testBit bpos = false ∧
    (set_direction_input aw rw port bpos rf (pdir aw port)).testBit bpos = true ∧
    (∀ i, i ≠ bpos →
      (set_direction_output aw rw port bpos rf (pdir aw port)).testBit i
        = (rf (pdir aw port)).testBit i ∧
      (set_direction_input aw rw port bpos rf (pdir aw port)).testBit i
        = (rf (pdir aw port)).testBit i) ∧
    (set_direction_output aw rw port bpos rf (pval aw port) = rf (pval aw port) ∧
      set_direction_input aw rw port bpos rf (pval aw port) = rf (pval aw port)) ∧
    (set_direction_output aw rw port bpos rf (pinp aw port) = rf (pinp aw port) ∧
      set_direction_input aw rw port bpos rf (pinp aw port) = rf (pinp aw port)) ∧
    (∀ a, a ≠ pdir aw port →
      set_direction_output aw rw port bpos rf a = rf a ∧
      set_direction_input aw rw port bpos rf a = rf a) ∧
    (port + 0x013C < 2 ^ aw →
      pdir aw port = port + 0x0134 ∧ pinp aw port = port + 0x0138 ∧
      pval aw port = port + 0x013C) := by
  have hother : ∀ a, a ≠ pdir aw port →
      set_direction_output aw rw port bpos rf a = rf a ∧
      set_direction_input aw rw port bpos rf a = rf a :=
    fun a ha => ⟨bit_clr_other _ _ _ _ _ ha, bit_set_other _ _ _ _ _ ha⟩
  refine ⟨?_, ?_, ?_, hother _ (pdir_ne_pval aw port haw).symm,
    hother _ (pdir_ne_pinp aw port haw).symm, hother, ?_⟩
  · rw [set_direction_output, testBit_bit_clr _ _ _ _ _ hb hv, if_pos rfl]
  · rw [set_direction_input, testBit_bit_set _ _ _ _ _ hb, if_pos rfl]
  · intro i hi
    rw [set_direction_output, set_direction_input, testBit_bit_set _ _ _ _ _ hb,
      testBit_bit_clr _ _ _ _ _ hb hv, if_neg hi, if_neg hi]
    exact ⟨rfl, rfl⟩
  · intro h
    exact ⟨Nat.mod_eq_of_lt (by omega), Nat.mod_eq_of_lt (by omega), Nat.mod_eq_of_lt h⟩

theorem set_direction_effect_witness :
    (21 < 32 ∧ 8 ≤ 32 ∧ (fun _ => 0x00A00005 : reg_file) (pdir 32 0x4804C000) < 2 ^ 32) ∧
    (set_direction_output 32 32 0x4804C000 21 (fun _ => 0x00A00005)
        (pdir 32 0x4804C000)).testBit 21 = false ∧
    (set_direction_input 32 32 0x4804C000 21 (fun _ => 0x00A00005)
        (pdir 32 0x4804C000)).testBit 21 = true :=
  ⟨⟨by decide, by decide, by decide⟩,
   (set_direction_effect 32 32 0x4804C000 21 (fun _ => 0x00A00005)
      (by decide) (by decide) (by decide)).1,
   (set_direction_effect 32 32 0x4804C000 21 (fun _ => 0x00A00005)
      (by decide) (by decide) (by decide)).2.1⟩

end pins

end am335x.port_pin

namespace win32.port_pin

section hosted

/-- C17: on the hosted target every `port_pin` operation is a no-op: any
sequence of `set_direction_output`, `set_direction_input`, `set_pin_high`,
`set_pin_low` and `toggle_pin` calls leaves the state as it was, and
`read_input_value()` returns `false` after every such sequence, also directly
after `set_pin_high()`. -/
theorem hosted_port_pin_noop {σ : Type} (calls : List mcal.pwm.PinCall) (hw : σ) :
    call_all calls hw = hw ∧
    read_input_value (call_all calls hw) = false ∧
    read_input_value (set_pin_high hw) = false ∧
    (∀ c : mcal.pwm.PinCall, call c hw = hw) := by
  have hone : ∀ (c : mcal.pwm.PinCall) (h : σ), call c h = h := by
    intro c h
    cases c <;> rfl
  refine ⟨?_, rfl, rfl, fun c => hone c hw⟩
  induction calls generalizing hw with
  | nil => rfl
  | cons c rest ih =>
    have h : call_all (c :: rest) hw = call_all rest (call c hw) := rfl
    rw [h, hone, ih]

end hosted

end win32.port_pin

namespace reg_access_dynamic

open mcal.reg

section dynamic

/-- C18: for every address, old register value `r = rf addr` and value `v` of
the `rw`-bit `reg_type`, `reg_or(addr, v)` leaves the register at `addr` equal
to `r | v` and changes no other location; `do_something()` on the
zero-initialised simulated register leaves it reading `0x20`. -/
theorem reg_or_effect (rw addr v : Nat) (rf : reg_file) (hr : rf addr < 2 ^ rw)
    (hv : v < 2 ^ rw) :
    reg_or rw addr v rf addr = (rf addr ||| v) ∧
    (∀ a, a ≠ addr → reg_or rw addr v rf a = rf a) ∧
    (∀ (address : Nat) (rf0 : reg_file), rf0 address = 0 →
      do_something address rf0 address = 0x20 ∧
      ∀ a, a ≠ address → do_something address rf0 a = rf0 a) := by
  refine ⟨?_, ?_, ?_⟩
  · simp only [reg_or, Function.update_same]
    rw [Nat.mod_eq_of_lt hv]
    exact Nat.mod_eq_of_lt (Nat.or_lt_two_pow hr hv)
  · intro a ha
    simp only [reg_or, Function.update_noteq ha]
  · intro address rf0 h0
    constructor
    · simp only [do_something, reg_or, Function.update_same, h0]
      decide
    · intro a ha
      simp only [do_something, reg_or, Function.update_noteq ha]

theorem reg_or_effect_witness :
    ((fun _ => 0x05 : reg_file) 0x25 < 2 ^ 8 ∧ 0x20 < 2 ^ 8) ∧
    reg_or 8 0x25 0x20 (fun _ => 0x05) 0x25 = 0x25 ∧
    do_something 0x25 (fun _ => 0) 0x25 = 0x20 :=
  ⟨⟨by decide, by decide⟩,
   (reg_or_effect 8 0x25 0x20 (fun _ => 0x05) (by decide) (by decide)).1,
   ((reg_or_effect 8 0x25 0x20 (fun _ => 0x05) (by decide) (by decide)).2.2
      0x25 (fun _ => 0) rfl).1⟩

end dynamic

end reg_access_dynamic

namespace mcal.reg

section descriptor

/-- C19: for every register width `rw`, every bit position `bpos < rw` and
every register value, `bit_get()` directly after `bit_set()` returns `true` and
`bit_get()` directly after `bit_clr()` returns `false`, on the same register
descriptor. -/
theorem bit_get_after_set_clr (rw addr bpos : Nat) (rf : reg_file) (hb : bpos < rw) :
    reg_access_static.bit_get rw addr bpos (reg_access_static.bit_set rw addr bpos rf) = true ∧
    reg_access_static.bit_get rw addr bpos (reg_access_static.bit_clr rw addr bpos rf)
      = false := by
  constructor
  · rw [reg_access_static.bit_get, testBit_bit_set _ _ _ _ _ hb, if_pos rfl]
  · rw [reg_access_static.bit_get, bit_clr_same, Nat.testBit_and, testBit_bit_complement,
      testBit_bit_mask]
    simp [hb]

theorem bit_get_after_set_clr_witness :
    (5 < 8) ∧
    reg_access_static.bit_get 8 0x25 5 (reg_access_static.bit_set 8 0x25 5 (fun _ => 0)) = true ∧
    reg_access_static.bit_get 8 0x25 5 (reg_access_static.bit_clr 8 0x25 5 (fun _ => 0xFF))
      = false :=
  ⟨by decide,
   (bit_get_after_set_clr 8 0x25 5 (fun _ => 0) (by decide)).1,
   (bit_get_after_set_clr 8 0x25 5 (fun _ => 0xFF) (by decide)).2⟩

end descriptor

end mcal.reg

namespace communication

section instantiation

/-- C20: `send_uint` is only usable with unsigned argument types.  For a type
whose `numeric_limits::is_signed` is `true` the `static_assert` rejects the
instantiation, so there is no result and no `send_byte` call for any value;
for a type whose `is_signed` is `false` the instantiation is the function
`send_uint` for its `digits`. -/
theorem send_uint_rejects_signed {σ : Type} (lim : numeric_limits)
    (send_byte : σ → Nat → Bool × σ) (u : Nat) (st : σ) (hs : lim.is_signed = true) :
    send_uint_instantiated lim send_byte u st
      = Except.error compile_error.type_must_be_unsigned ∧
    (∀ r, send_uint_instantiated lim send_byte u st ≠ Except.ok r) ∧
    (∀ lim2 : numeric_limits, lim2.is_signed = false →
      send_uint_instantiated lim2 send_byte u st
        = Except.ok (send_uint send_byte lim2.digits u st)) := by
  have h : send_uint_instantiated lim send_byte u st
      = Except.error compile_error.type_must_be_unsigned := by
    simp [send_uint_instantiated, hs]
  refine ⟨h, ?_, ?_⟩
  · intro r hr
    rw [h] at hr
    cases hr
  · intro lim2 h2
    simp [send_uint_instantiated, h2]

theorem send_uint_rejects_signed_witness :
    ((⟨true, 31⟩ : numeric_limits).is_signed = true) ∧
    send_uint_instantiated ⟨true, 31⟩ (failing_at none) 0x11223344 0
      = Except.error compile_error.type_must_be_unsigned :=
  ⟨rfl, (send_uint_rejects_signed ⟨true, 31⟩ (failing_at none) 0x11223344 0 rfl).1⟩

end instantiation

end communication

namespace mcal.pwm

section accuracy

theorem count_high_levels (d r : Nat) :
    ((List.range r).map (fun k => level d (k + 1))).count PinCall.set_pin_high = min d r := by
  induction r with
  | zero => simp
  | succ n ih =>
    rw [List.range_succ, List.map_append, List.count_append, ih]
    by_cases h : n + 1 ≤ d
    · simp [level, h]
      omega
    · simp [level, h]
      omega

theorem count_low_levels (d r : Nat) :
    ((List.range r).map (fun k => level d (k + 1))).count PinCall.set_pin_low
      = r - min d r := by
  induction r with
  | zero => simp
  | succ n ih =>
    rw [List.range_succ, List.map_append, List.count_append, ih]
    by_cases h : n + 1 ≤ d
    · simp [level, h]
      omega
    · simp [level, h]
      omega

/-- C29: duty-cycle accuracy.  For every resolution `r >= 1` and duty cycle
`d`, one full period of `r` `service()` calls starting from `counter = 0`
drives the pin high on exactly `min d r` ticks and low on the remaining
`r - min d r` ticks; `d = 0` gives no high tick and `d = r` no low tick. -/
theorem duty_cycle_accuracy (w : Nat) (ws : List (List Nat)) (s : pwm_board)
    (hc : s.counter = 0) (hr : 1 ≤ s.resolution) (hw : s.resolution < 2 ^ w)
    (hl : ws.length = s.resolution) :
    (run w ws s).2.count PinCall.set_pin_high = min s.duty_cycle s.resolution ∧
    (run w ws s).2.count PinCall.set_pin_low
      = s.resolution - min s.duty_cycle s.resolution ∧
    (run w ws s).2.length = s.resolution ∧
    (s.duty_cycle = 0 → (run w ws s).2.count PinCall.set_pin_high = 0) ∧
    (s.duty_cycle = s.resolution → (run w ws s).2.count PinCall.set_pin_low = 0) := by
  rw [run_period w ws s hc hr hw hl]
  simp only [count_high_levels, count_low_levels, List.length_map, List.length_range,
    true_and]
  refine ⟨?_, ?_⟩
  · intro h0
    omega
  · intro hd
    omega

theorem duty_cycle_accuracy_witness :
    ((⟨9, 0, 3, 3⟩ : pwm_board).counter = 0 ∧ 1 ≤ (⟨9, 0, 3, 3⟩ : pwm_board).resolution ∧
      (⟨9, 0, 3, 3⟩ : pwm_board).resolution < 2 ^ 16 ∧ (idle 9).length = 9) ∧
    (run 16 (idle 9) ⟨9, 0, 3, 3⟩).2.count PinCall.set_pin_high = 3 ∧
    (run 16 (idle 9) ⟨9, 0, 3, 3⟩).2.count PinCall.set_pin_low = 6 :=
  ⟨⟨rfl, by decide, by decide, by decide⟩,
   (duty_cycle_accuracy 16 (idle 9) ⟨9, 0, 3, 3⟩ rfl (by decide) (by decide) (by decide)).1,
   (duty_cycle_accuracy 16 (idle 9) ⟨9, 0, 3, 3⟩ rfl (by decide) (by decide) (by decide)).2.1⟩

end accuracy

end mcal.pwm

namespace dcan

section transmit_request

/-- The loop of `DCANTxRqstStatGet` from `index >= 1` stops at the first
message object in `index .. 127` whose TxRqst bit is clear, and at 128 when
there is none. -/
theorem DCANTxRqstStatGet_loop_spec (txrq : Nat → Nat) :
    ∀ (fuel index : Nat), 128 - index ≤ fuel → index ≤ 128 →
      index ≤ DCANTxRqstStatGet_loop txrq fuel index ∧
      DCANTxRqstStatGet_loop txrq fuel index ≤ 128 ∧
      (∀ n, index ≤ n → n < DCANTxRqstStatGet_loop txrq fuel index →
        DCANTxRqstStatusGet txrq n ≠ 0) ∧
      (DCANTxRqstStatGet_loop txrq fuel index < 128 →
        DCANTxRqstStatusGet txrq (DCANTxRqstStatGet_loop txrq fuel index) = 0) := by
  intro fuel
  induction fuel with
  | zero =>
    intro index hf hle
    have h : index = 128 := by omega
    subst h
    refine ⟨le_refl _, le_refl _, ?_, ?_⟩
    · intro n h1 h2
      simp only [DCANTxRqstStatGet_loop] at h2
      omega
    · intro h1
      simp only [DCANTxRqstStatGet_loop] at h1
      omega
  | succ fuel ih =>
    intro index hf hle
    by_cases hlt : index < 128
    · by_cases hz : (txrq ((index - 1) / 32) &&& bit ((index - 1) % 32)) = 0
      · have hr : DCANTxRqstStatGet_loop txrq (fuel + 1) index = index := by
          simp only [DCANTxRqstStatGet_loop, hlt, if_true, hz]
        rw [hr]
        exact ⟨le_refl _, hle, fun n h1 h2 => absurd h2 (by omega), fun _ => hz⟩
      · have hr : DCANTxRqstStatGet_loop txrq (fuel + 1) index
            = DCANTxRqstStatGet_loop txrq fuel (index + 1) := by
          simp only [DCANTxRqstStatGet_loop, hlt, if_true, hz, if_false]
        rw [hr]
        obtain ⟨h1, h2, h3, h4⟩ := ih (index + 1) (by omega) (by omega)
        refine ⟨by omega, h2, ?_, h4⟩
        intro n hn1 hn2
        by_cases hni : n = index
        · rw [hni]
          exact hz
        · exact h3 n (by omega) hn2
    · have h : index = 128 := by omega
      subst h
      have hr : DCANTxRqstStatGet_loop txrq (fuel + 1) 128 = 128 := by
        simp only [DCANTxRqstStatGet_loop, Nat.lt_irrefl, if_false]
      rw [hr]
      exact ⟨le_refl _, le_refl _, fun n h1 h2 => absurd h2 (by omega),
        fun h1 => absurd h1 (by omega)⟩

/-- The status that `DCANTxRqstStatusGet` returns is 0 exactly when the
TxRqst bit of the message object (bit `(msgNum - 1) mod 32` of register
`(msgNum - 1) div 32`) is not set. -/
theorem DCANTxRqstStatusGet_eq_zero_iff (txrq : Nat → Nat) (msgNum : Nat) :
    DCANTxRqstStatusGet txrq msgNum = 0
      ↔ (txrq ((msgNum - 1) / 32)).testBit ((msgNum - 1) % 32) = false := by
  have hk : (msgNum - 1) % 32 < 32 := Nat.mod_lt _ (by decide)
  have hbit : bit ((msgNum - 1) % 32) = 2 ^ ((msgNum - 1) % 32) :=
    mcal.reg.bit_mask_eq 32 _ hk
  simp only [DCANTxRqstStatusGet]
  rw [hbit]
  constructor
  · intro h
    have h1 : (txrq ((msgNum - 1) / 32) &&& 2 ^ ((msgNum - 1) % 32)).testBit
        ((msgNum - 1) % 32) = false := by
      rw [h]
      exact Nat.zero_testBit _
    rw [Nat.testBit_and, Nat.testBit_two_pow_self, Bool.and_true] at h1
    exact h1
  · intro h
    apply Nat.eq_of_testBit_eq
    intro i
    rw [Nat.testBit_and, Nat.testBit_two_pow, Nat.zero_testBit]
    by_cases hi : (msgNum - 1) % 32 = i
    · rw [← hi, h]
      rfl
    · simp [hi]

set_option maxRecDepth 20000 in
/-- C23 (counterexample): with the TxRqst bits of all 128 message objects set
there is no message object in `1 .. 128` whose TxRqst bit is not set, and
`DCANTxRqstStatGet` returns 128, a message object whose transmit request is
pending (`DCANTxRqstStatusGet` for it is not 0). -/
theorem DCANTxRqstStatGet_all_pending :
    DCANTxRqstStatGet (fun _ => 0xFFFFFFFF) = 128 ∧
    DCANTxRqstStatusGet (fun _ => 0xFFFFFFFF) (DCANTxRqstStatGet (fun _ => 0xFFFFFFFF)) ≠ 0 ∧
    (∀ n, n < 129 → DCANTxRqstStatusGet (fun _ => 0xFFFFFFFF) n ≠ 0) := by
  refine ⟨by decide, by decide, by decide⟩

/-- C23 (amended): for every state of the four 32-bit DCAN transmit-request
registers in which at least one message object in `1 .. 128` has its TxRqst
bit not set, `DCANTxRqstStatGet` returns the lowest message object number `n`
in `1 .. 128` whose TxRqst bit (bit `(n - 1) mod 32` of register
`(n - 1) div 32`) is not set; the message object it returns has no pending
transmit request. -/
theorem DCANTxRqstStatGet_lowest_free (txrq : Nat → Nat)
    (hfree : ∃ n, 1 ≤ n ∧ n ≤ 128 ∧ DCANTxRqstStatusGet txrq n = 0) :
    1 ≤ DCANTxRqstStatGet txrq ∧ DCANTxRqstStatGet txrq ≤ 128 ∧
    DCANTxRqstStatusGet txrq (DCANTxRqstStatGet txrq) = 0 ∧
    (txrq ((DCANTxRqstStatGet txrq - 1) / 32)).testBit ((DCANTxRqstStatGet txrq - 1) % 32)
      = false ∧
    (∀ n, 1 ≤ n → n < DCANTxRqstStatGet txrq →
      DCANTxRqstStatusGet txrq n ≠ 0 ∧
      (txrq ((n - 1) / 32)).testBit ((n - 1) % 32) = true) := by
  obtain ⟨h1, h2, h3, h4⟩ := DCANTxRqstStatGet_loop_spec txrq 128 1 (by omega) (by omega)
  have hr : DCANTxRqstStatGet txrq = DCANTxRqstStatGet_loop txrq 128 1 := rfl
  rw [← hr] at h1 h2 h3 h4
  have hzero : DCANTxRqstStatusGet txrq (DCANTxRqstStatGet txrq) = 0 := by
    by_cases hlt : DCANTxRqstStatGet txrq < 128
    · exact h4 hlt
    · obtain ⟨n, hn1, hn2, hn3⟩ := hfree
      have hr128 : DCANTxRqstStatGet txrq = 128 := by omega
      by_cases hn : n < 128
      · exact absurd hn3 (h3 n hn1 (by omega))
      · have hn128 : n = 128 := by omega
        rw [hr128, ← hn128]
        exact hn3
  refine ⟨h1, h2, hzero, (DCANTxRqstStatusGet_eq_zero_iff txrq _).mp hzero, ?_⟩
  intro n hn1 hn2
  have hne := h3 n hn1 hn2
  refine ⟨hne, ?_⟩
  cases hb : (txrq ((n - 1) / 32)).testBit ((n - 1) % 32)
  · exact absurd ((DCANTxRqstStatusGet_eq_zero_iff txrq n).mpr hb) hne
  · rfl

set_option maxRecDepth 20000 in
theorem DCANTxRqstStatGet_lowest_free_witness :
    (∃ n, 1 ≤ n ∧ n ≤ 128 ∧
      DCANTxRqstStatusGet (fun r => if r = 3 then 0x7FFFFFFF else 0xFFFFFFFF) n = 0) ∧
    DCANTxRqstStatGet (fun r => if r = 3 then 0x7FFFFFFF else 0xFFFFFFFF) ≤ 128 ∧
    DCANTxRqstStatusGet (fun r => if r = 3 then 0x7FFFFFFF else 0xFFFFFFFF)
      (DCANTxRqstStatGet (fun r => if r = 3 then 0x7FFFFFFF else 0xFFFFFFFF)) = 0 :=
  ⟨⟨128, by decide, by decide, by decide⟩,
   (DCANTxRqstStatGet_lowest_free (fun r => if r = 3 then 0x7FFFFFFF else 0xFFFFFFFF)
      ⟨128, by decide, by decide, by decide⟩).2.1,
   (DCANTxRqstStatGet_lowest_free (fun r => if r = 3 then 0x7FFFFFFF else 0xFFFFFFFF)
      ⟨128, by decide, by decide, by decide⟩).2.2.1⟩

/-- C24 (the code at the failing input): `DCANIntMuxConfig` ORs
`msgNum << offSet` into the register and never reads `intLine`.  On a cleared
bank, `DCANIntMuxConfig(baseAdd, DCAN_INT0_ACTIVE, 3)` leaves `DCAN_INTMUX(0)`
at `0xC`: the IntMux bit of message object 3 is set although interrupt line 0
was asked for, and the IntMux bit of message object 4 has changed. -/
theorem DCANIntMuxConfig_ignores_intLine :
    DCANIntMuxConfig (fun _ => 0) DCAN_INT0_ACTIVE 3 0 = 0xC ∧
    IntMux (DCANIntMuxConfig (fun _ => 0) DCAN_INT0_ACTIVE 3) 3 = true ∧
    IntMux (fun _ => 0) 4 = false ∧
    IntMux (DCANIntMuxConfig (fun _ => 0) DCAN_INT0_ACTIVE 3) 4 = true ∧
    IntMux (DCANIntMuxConfig (fun _ => 0) DCAN_INT1_ACTIVE 2) 2 = false ∧
    (∀ (bank : Nat → Nat) (intLine msgNum : Nat),
      DCANIntMuxConfig bank intLine msgNum = DCANIntMuxConfig bank DCAN_INT0_ACTIVE msgNum) := by
  refine ⟨by decide, by decide, by decide, by decide, by decide, fun _ _ _ => rfl⟩

end transmit_request

end dcan

namespace ecap

section capture

/-- C25 (the code at the failing input): `ECAPCapeEvtPolarityConfig` ORs
`capEvt1pol` into all four polarity bits and never clears a bit.  With
`ECCTL1 = 0` and arguments `(1, 0, 0, 0)` the register becomes `0x55`, so the
polarity bits of events 2, 3 and 4 are 1 although their arguments are 0; with
`ECCTL1 = 0x55` and arguments `(0, 0, 0, 0)` the register stays `0x55`, so the
bit of event 1 stays 1 although `capEvt1pol = 0`. -/
theorem ECAPCapeEvtPolarityConfig_uses_capEvt1pol :
    ECAPCapeEvtPolarityConfig 0 1 0 0 0 = 0x55 ∧
    (ECAPCapeEvtPolarityConfig 0 1 0 0 0).testBit 2 = true ∧
    (ECAPCapeEvtPolarityConfig 0 1 0 0 0).testBit 4 = true ∧
    (ECAPCapeEvtPolarityConfig 0 1 0 0 0).testBit 6 = true ∧
    (ECAPCapeEvtPolarityConfig 0 0 1 1 1).testBit 2 = false ∧
    (ECAPCapeEvtPolarityConfig 0x55 0 0 0 0).testBit 0 = true ∧
    (∀ r p1 p2 p3 p4 : Nat,
      ECAPCapeEvtPolarityConfig r p1 p2 p3 p4 = ECAPCapeEvtPolarityConfig r p1 0 0 0) := by
  refine ⟨by decide, by decide, by decide, by decide, by decide, by decide,
    fun _ _ _ _ _ => rfl⟩

/-- C26 (the code at the failing input): `ECAPIntDisable` is the same
read-OR-write as `ECAPIntEnable`.  With `ECEINT = 0` and `flag = 0x0002` the
register is `0x0002` after `ECAPIntDisable`: the bit named in `flag` is 1, and
it is still 1 after `ECAPIntEnable(flag)` followed by `ECAPIntDisable(flag)`. -/
theorem ECAPIntDisable_sets_flag :
    ECAPIntDisable 0 0x0002 = 0x0002 ∧
    (ECAPIntDisable 0 0x0002).testBit 1 = true ∧
    (ECAPIntDisable (ECAPIntEnable 0 0x0002) 0x0002).testBit 1 = true ∧
    (∀ eceint flag : Nat, ECAPIntDisable eceint flag = ECAPIntEnable eceint flag) ∧
    (∀ eceint flag i : Nat, i < 16 → flag.testBit i = true →
      (ECAPIntDisable eceint flag).testBit i = true) := by
  refine ⟨by decide, by decide, by decide, fun _ _ => rfl, ?_⟩
  intro eceint flag i hi hf
  unfold ECAPIntDisable
  rw [Nat.testBit_mod_two_pow, Nat.testBit_or, hf]
  simp [hi]

end capture

end ecap

namespace phy

section status

/-- C27 (the code at the failing input): `PhyAutoNegStatusGet` returns `TRUE`
exactly when the `PHY_AUTONEG_STATUS` bits of the value read equal
`PHY_AUTONEG_INCOMPLETE`, for all values of the two constants; with the
auto-negotiation-complete bit `0x0020` as status mask and 0 as the incomplete
value, the register value `0x0020` (completed) gives `FALSE` and the register
value 0 (not completed) gives `TRUE`. -/
theorem PhyAutoNegStatusGet_inverted :
    (∀ incomplete status data : Nat,
      PhyAutoNegStatusGet incomplete status data = true
        ↔ (data % 2 ^ 16 &&& status) = incomplete) ∧
    PhyAutoNegStatusGet 0 0x0020 0x0020 = false ∧
    PhyAutoNegStatusGet 0 0x0020 0x0000 = true := by
  refine ⟨?_, by decide, by decide⟩
  intro incomplete status data
  unfold PhyAutoNegStatusGet
  constructor
  · intro h
    by_contra hne
    rw [if_neg (fun e => hne e.symm)] at h
    exact Bool.false_ne_true h
  · intro h
    rw [if_pos h.symm]

/-- The loop of `PhyLinkStatusGet` with `retries` iterations left after `n`
reads: it makes at most `retries` further reads, returns `TRUE` at the first
read with the link bit set, and `FALSE` after `retries` reads without it. -/
theorem PhyLinkStatusGet_loop_spec (mask : Nat) (bsr : Nat → Nat) :
    ∀ (retries n : Nat),
      n ≤ (PhyLinkStatusGet_loop mask bsr retries n).2 ∧
      (PhyLinkStatusGet_loop mask bsr retries n).2 ≤ n + retries ∧
      ((PhyLinkStatusGet_loop mask bsr retries n).1 = true →
        n < (PhyLinkStatusGet_loop mask bsr retries n).2 ∧
        (bsr ((PhyLinkStatusGet_loop mask bsr retries n).2 - 1) % 2 ^ 16 &&& mask) ≠ 0) ∧
      ((PhyLinkStatusGet_loop mask bsr retries n).1 = false →
        (PhyLinkStatusGet_loop mask bsr retries n).2 = n + retries) ∧
      (∀ j, n ≤ j → j + 1 < (PhyLinkStatusGet_loop mask bsr retries n).2 →
        (bsr j % 2 ^ 16 &&& mask) = 0) ∧
      ((PhyLinkStatusGet_loop mask bsr retries n).1 = false →
        ∀ j, n ≤ j → j < n + retries → (bsr j % 2 ^ 16 &&& mask) = 0) := by
  intro retries
  induction retries with
  | zero =>
    intro n
    simp only [PhyLinkStatusGet_loop]
    refine ⟨le_refl _, le_refl _, fun h => absurd h Bool.false_ne_true, fun _ => rfl,
      fun j h1 h2 => absurd h2 (by omega), fun _ j h1 h2 => absurd h2 (by omega)⟩
  | succ r ih =>
    intro n
    by_cases hbit : (bsr n % 2 ^ 16 &&& mask) ≠ 0
    · have hr : PhyLinkStatusGet_loop mask bsr (r + 1) n = (true, n + 1) := by
        simp only [PhyLinkStatusGet_loop]
        rw [if_pos hbit]
      rw [hr]
      refine ⟨by simp, by simp, fun _ => ⟨by simp, by simpa using hbit⟩,
        fun h => absurd h (by simp), fun j h1 h2 => absurd h2 (by simp; omega),
        fun h => absurd h (by simp)⟩
    · have hr : PhyLinkStatusGet_loop mask bsr (r + 1) n
          = PhyLinkStatusGet_loop mask bsr r (n + 1) := by
        simp only [PhyLinkStatusGet_loop]
        rw [if_neg hbit]
      have hz : (bsr n % 2 ^ 16 &&& mask) = 0 := by
        by_contra h
        exact hbit h
      rw [hr]
      obtain ⟨h1, h2, h3, h4, h5, h6⟩ := ih (n + 1)
      refine ⟨by omega, by omega, fun h => ⟨by omega, (h3 h).2⟩,
        fun h => by rw [h4 h]; omega, ?_, ?_⟩
      · intro j hj1 hj2
        by_cases hjn : j = n
        · rw [hjn]; exact hz
        · exact h5 j (by omega) hj2
      · intro h j hj1 hj2
        by_cases hjn : j = n
        · rw [hjn]; exact hz
        · exact h6 h j (by omega) (by omega)

/-- C28 (the code at the failing input): for `retries` equal to the largest
`unsigned int`, `retries++` wraps to 0, the loop body never runs and
`PhyLinkStatusGet` returns `FALSE` without a single read of the basic status
register, whatever the register would have read (here: link up on every
read).  For every smaller `retries` the function makes between 1 and
`retries + 1` reads, returns `TRUE` at the first read with the link bit set
and `FALSE` only after `retries + 1` reads that all had it clear. -/
theorem PhyLinkStatusGet_max_retries :
    PhyLinkStatusGet 32 0x0004 (fun _ => 0x0004) 0xFFFFFFFF = (false, 0) ∧
    (∀ (w mask : Nat) (bsr : Nat → Nat),
      PhyLinkStatusGet w mask bsr (2 ^ w - 1) = (false, 0)) ∧
    PhyLinkStatusGet 32 0x0004 (fun _ => 0x0004) 0xFFFFFFFE = (true, 1) ∧
    (∀ (w mask : Nat) (bsr : Nat → Nat) (retries : Nat), retries + 1 < 2 ^ w →
      1 ≤ (PhyLinkStatusGet w mask bsr retries).2 ∧
      (PhyLinkStatusGet w mask bsr retries).2 ≤ retries + 1 ∧
      (∀ j, j + 1 < (PhyLinkStatusGet w mask bsr retries).2 →
        (bsr j % 2 ^ 16 &&& mask) = 0) ∧
      ((PhyLinkStatusGet w mask bsr retries).1 = true →
        (bsr ((PhyLinkStatusGet w mask bsr retries).2 - 1) % 2 ^ 16 &&& mask) ≠ 0) ∧
      ((PhyLinkStatusGet w mask bsr retries).1 = false →
        (PhyLinkStatusGet w mask bsr retries).2 = retries + 1 ∧
        ∀ j, j < retries + 1 → (bsr j % 2 ^ 16 &&& mask) = 0)) := by
  refine ⟨by decide, ?_, by decide, ?_⟩
  · intro w mask bsr
    have h1 : 1 ≤ 2 ^ w := Nat.one_le_two_pow
    have h : (2 ^ w - 1 + 1) % 2 ^ w = 0 := by
      rw [Nat.sub_add_cancel h1, Nat.mod_self]
    simp only [PhyLinkStatusGet, h, PhyLinkStatusGet_loop]
  · intro w mask bsr retries hlt
    have hm : (retries + 1) % 2 ^ w = retries + 1 := Nat.mod_eq_of_lt hlt
    obtain ⟨h1, h2, h3, h4, h5, h6⟩ := PhyLinkStatusGet_loop_spec mask bsr (retries + 1) 0
    simp only [PhyLinkStatusGet, hm]
    refine ⟨?_, by omega, fun j hj => h5 j (Nat.zero_le j) hj, fun h => (h3 h).2,
      fun h => ⟨by rw [h4 h]; omega, fun j hj => h6 h j (Nat.zero_le j) (by omega)⟩⟩
    cases hres : (PhyLinkStatusGet_loop mask bsr (retries + 1) 0).1
    · rw [h4 hres]; omega
    · exact (h3 hres).1

end status

end phy

namespace math.checksums.crc

section refinement

theorem shiftLeft_xor (a b n : Nat) : (a ^^^ b) <<< n = (a <<< n) ^^^ (b <<< n) := by
  apply Nat.eq_of_testBit_eq
  intro i
  simp only [Nat.testBit_shiftLeft, Nat.testBit_xor]
  by_cases h : i ≥ n <;> simp [h]

theorem xor_mod_pow (a b n : Nat) : (a ^^^ b) % 2 ^ n = (a % 2 ^ n) ^^^ (b % 2 ^ n) := by
  apply Nat.eq_of_testBit_eq
  intro i
  simp only [Nat.testBit_mod_two_pow, Nat.testBit_xor]
  by_cases h : i < n <;> simp [h]

/-- A number is its high part XOR its low part. -/
theorem split_at (c n : Nat) : c = ((c >>> n) <<< n) ^^^ (c % 2 ^ n) := by
  apply Nat.eq_of_testBit_eq
  intro i
  simp only [Nat.testBit_xor, Nat.testBit_shiftLeft, Nat.testBit_shiftRight,
    Nat.testBit_mod_two_pow]
  by_cases h : i < n
  · have h2 : ¬ i ≥ n := by omega
    simp [h, h2]
  · have h2 : i ≥ n := by omega
    have h3 : n + (i - n) = i := by omega
    simp [h, h2, h3]

theorem xor_cancel_right (x y p : Nat) : (x ^^^ p) ^^^ (y ^^^ p) = x ^^^ y := by
  apply Nat.eq_of_testBit_eq
  intro i
  simp only [Nat.testBit_xor]
  cases x.testBit i <;> cases y.testBit i <;> cases p.testBit i <;> rfl

theorem xor_right_swap (x y p : Nat) : (x ^^^ p) ^^^ y = (x ^^^ y) ^^^ p := by
  apply Nat.eq_of_testBit_eq
  intro i
  simp only [Nat.testBit_xor]
  cases x.testBit i <;> cases y.testBit i <;> cases p.testBit i <;> rfl

/-- The shift step is linear over XOR. -/
theorem bit_serial_shift_xor (a b : Nat) :
    bit_serial_shift (a ^^^ b) = bit_serial_shift a ^^^ bit_serial_shift b := by
  unfold bit_serial_shift
  rw [Nat.testBit_xor, shiftLeft_xor, xor_mod_pow]
  cases ha : a.testBit 31 <;> cases hb : b.testBit 31
  · simp
  · simp [Nat.xor_assoc]
  · simp [xor_right_swap]
  · simp [xor_cancel_right]

theorem iterate_shift_xor (n a b : Nat) :
    Nat.iterate bit_serial_shift n (a ^^^ b)
      = Nat.iterate bit_serial_shift n a ^^^ Nat.iterate bit_serial_shift n b := by
  induction n generalizing a b with
  | zero => rfl
  | succ k ih =>
    simp only [Function.iterate_succ_apply]
    rw [bit_serial_shift_xor, ih]

theorem bit_serial_shift_small (c : Nat) (h : c < 2147483648) : bit_serial_shift c = 2 * c := by
  have hb : c.testBit 31 = false := Nat.testBit_lt_two_pow (by norm_num; exact h)
  unfold bit_serial_shift
  rw [hb]
  simp only [Bool.false_eq_true, if_false, Nat.shiftLeft_eq]
  norm_num
  omega

theorem iterate4_small (c : Nat) (h : c < 268435456) :
    Nat.iterate bit_serial_shift 4 c = 16 * c := by
  simp only [Function.iterate_succ_apply, Function.iterate_zero_apply]
  rw [bit_serial_shift_small c (by omega), bit_serial_shift_small (2 * c) (by omega),
    bit_serial_shift_small (2 * (2 * c)) (by omega),
    bit_serial_shift_small (2 * (2 * (2 * c))) (by omega)]
  omega

theorem bit_serial_shift_lt (c : Nat) : bit_serial_shift c < 2 ^ 32 := by
  unfold bit_serial_shift
  have h1 : (c <<< 1) % 2 ^ 32 < 2 ^ 32 := Nat.mod_lt _ (by norm_num)
  split
  · exact Nat.xor_lt_two_pow h1 (by norm_num)
  · exact h1

theorem table_entry (h : Nat) (hh : h < 16) :
    Nat.iterate bit_serial_shift 4 (h <<< 28) = table.getD h 0 := by
  revert h
  decide

/-- The masked shift of the table algorithm keeps the low 28 bits, moved up
by four. -/
theorem shift4_masked (c : Nat) :
    (((c <<< 4) % 2 ^ 32) &&& 0xFFFFFFF0) % 2 ^ 32 = 16 * (c % 268435456) := by
  have hmask : (0xFFFFFFF0 : Nat) = (2 ^ 28 - 1) <<< 4 := by decide
  have h16 : 16 * (c % 268435456) = ((c % 2 ^ 28) <<< 4) := by
    rw [Nat.shiftLeft_eq]
    norm_num
    omega
  rw [h16, hmask]
  apply Nat.eq_of_testBit_eq
  intro i
  simp only [Nat.testBit_mod_two_pow, Nat.testBit_and, Nat.testBit_shiftLeft,
    Nat.testBit_two_pow_sub_one]
  by_cases h1 : i < 32 <;> by_cases h2 : i ≥ 4 <;> by_cases h3 : i - 4 < 28 <;>
    simp [h1, h2, h3]
  all_goals omega

theorem index_first (c b : Nat) (hc : c < 2 ^ 32) (hb : b < 256) :
    (((c >>> 28) % 2 ^ 8) ^^^ ((b >>> 4) % 2 ^ 8)) &&& 0x0F = (c >>> 28) ^^^ (b >>> 4) := by
  have h15 : (0x0F : Nat) = 2 ^ 4 - 1 := by decide
  have hc2 : c >>> 28 < 2 ^ 4 := by
    rw [Nat.shiftRight_eq_div_pow]
    norm_num at hc ⊢
    omega
  have hb2 : b >>> 4 < 2 ^ 4 := by
    rw [Nat.shiftRight_eq_div_pow]
    norm_num
    omega
  have hx := Nat.xor_lt_two_pow hc2 hb2
  rw [Nat.mod_eq_of_lt (lt_trans hc2 (by norm_num)),
    Nat.mod_eq_of_lt (lt_trans hb2 (by norm_num)), h15, Nat.and_pow_two_sub_one_eq_mod,
    Nat.mod_eq_of_lt hx]

theorem index_second (c b : Nat) (hc : c < 2 ^ 32) :
    (((c >>> 28) % 2 ^ 8) ^^^ b) &&& 0x0F = (c >>> 28) ^^^ (b % 16) := by
  have h15 : (0x0F : Nat) = 2 ^ 4 - 1 := by decide
  have hc2 : c >>> 28 < 2 ^ 4 := by
    rw [Nat.shiftRight_eq_div_pow]
    norm_num at hc ⊢
    omega
  rw [Nat.mod_eq_of_lt (lt_trans hc2 (by norm_num)), Nat.and_xor_distrib_right, h15,
    Nat.and_pow_two_sub_one_eq_mod, Nat.and_pow_two_sub_one_eq_mod, Nat.mod_eq_of_lt hc2]

/-- Four shift steps after a nibble `n` was XORed into the top four bits are
one table step. -/
theorem nibble_step (c n : Nat) (hc : c < 2 ^ 32) (hn : n < 16) :
    Nat.iterate bit_serial_shift 4 (c ^^^ (n <<< 28))
      = (16 * (c % 268435456)) ^^^ table.getD ((c >>> 28) ^^^ n) 0 := by
  have hc2 : c >>> 28 < 2 ^ 4 := by
    rw [Nat.shiftRight_eq_div_pow]
    norm_num at hc ⊢
    omega
  have hx : (c >>> 28) ^^^ n < 16 := Nat.xor_lt_two_pow hc2 (by norm_num; exact hn)
  have hsplit : c ^^^ (n <<< 28) = ((((c >>> 28) ^^^ n) <<< 28)) ^^^ (c % 2 ^ 28) := by
    conv_lhs => rw [split_at c 28]
    rw [shiftLeft_xor, xor_right_swap]
  have hlo : c % 2 ^ 28 < 268435456 := by
    norm_num
    omega
  rw [hsplit, iterate_shift_xor, table_entry _ hx, iterate4_small _ hlo, Nat.xor_comm]
  norm_num

theorem byte_split (b : Nat) : b <<< 24 = ((b >>> 4) <<< 28) ^^^ ((b % 16) <<< 24) := by
  conv_lhs => rw [split_at b 4]
  rw [shiftLeft_xor, ← Nat.shiftLeft_add]
  norm_num

theorem table_lt (j : Nat) : table.getD j 0 < 2 ^ 32 := by
  by_cases hj : j < 16
  · have hall : ∀ k, k < 16 → table.getD k 0 < 2 ^ 32 := by decide
    exact hall j hj
  · rw [List.getD_eq_default _ _ (by simp only [table, List.length_cons, List.length_nil]; omega)]
    norm_num

theorem step_lt (c x : Nat) : crc32_mpeg2_step c x < 2 ^ 32 := by
  unfold crc32_mpeg2_step
  exact Nat.xor_lt_two_pow (Nat.mod_lt _ (by norm_num)) (table_lt _)

/-- One byte: the table algorithm's loop body is eight bit-serial steps. -/
theorem step_eq_bit_serial (c b : Nat) (hc : c < 2 ^ 32) (hb : b < 256) :
    crc32_mpeg2_step c b = bit_serial_byte c b := by
  have hval : b &&& 0xFF = b := by
    have h255 : (0xFF : Nat) = 2 ^ 8 - 1 := by decide
    rw [h255, Nat.and_pow_two_sub_one_eq_mod]
    exact Nat.mod_eq_of_lt (by norm_num; exact hb)
  have hb8 : b % 2 ^ 8 = b := Nat.mod_eq_of_lt (by norm_num; exact hb)
  have hnh : b >>> 4 < 16 := by
    rw [Nat.shiftRight_eq_div_pow]
    norm_num
    omega
  have hnl : b % 16 < 16 := Nat.mod_lt _ (by decide)
  -- the bit-serial side
  have hfirst := nibble_step c (b >>> 4) hc hnh
  have hc1 : (16 * (c % 268435456)) ^^^ table.getD ((c >>> 28) ^^^ (b >>> 4)) 0 < 2 ^ 32 := by
    rw [← hfirst]
    exact bit_serial_shift_lt _
  have hlow : Nat.iterate bit_serial_shift 4 ((b % 16) <<< 24) = (b % 16) <<< 28 := by
    rw [iterate4_small _ (by rw [Nat.shiftLeft_eq]; norm_num; omega), Nat.shiftLeft_eq,
      Nat.shiftLeft_eq]
    norm_num
    omega
  have hserial : bit_serial_byte c b
      = Nat.iterate bit_serial_shift 4
          (((16 * (c % 268435456)) ^^^ table.getD ((c >>> 28) ^^^ (b >>> 4)) 0)
            ^^^ ((b % 16) <<< 28)) := by
    unfold bit_serial_byte
    have h8 : (8 : Nat) = 4 + 4 := rfl
    rw [h8, Function.iterate_add_apply, byte_split, ← Nat.xor_assoc, iterate_shift_xor,
      hfirst, hlow]
  rw [hserial, nibble_step _ _ hc1 hnl]
  -- the table side
  unfold crc32_mpeg2_step
  simp only [hval, hb8]
  rw [index_first c b hc hb, shift4_masked c]
  rw [index_second _ b hc1, shift4_masked]

theorem fold_eq_bit_serial (data : List Nat) (hdata : ∀ b ∈ data, b < 256) :
    ∀ c, c < 2 ^ 32 →
      data.foldl crc32_mpeg2_step c = data.foldl bit_serial_byte c := by
  induction data with
  | nil => intro c _; rfl
  | cons b rest ih =>
    intro c hc
    have hb := hdata b (List.mem_cons_self b rest)
    simp only [List.foldl_cons]
    rw [← step_eq_bit_serial c b hc hb]
    exact ih (fun x hx => hdata x (List.mem_cons_of_mem b hx)) _ (step_lt c b)

end refinement

section claims

/-- C21: `crc32_mpeg2` applied to the nine ASCII bytes `'1'` .. `'9'`
(`0x31` .. `0x39`) returns `0x0376E6E7`. -/
theorem crc32_mpeg2_test_vector :
    crc32_mpeg2 [0x31, 0x32, 0x33, 0x34, 0x35, 0x36, 0x37, 0x38, 0x39] = 0x0376E6E7 := by
  decide

/-- C22: for every finite byte sequence the nibble-table `crc32_mpeg2` returns
the value of the bit-serial CRC-32/MPEG-2 definition (initial value
`0xFFFFFFFF`, each byte XORed into the top 8 bits, then eight steps of
"shift left by one, XOR `0x04C11DB7` if the bit shifted out was 1", no
reflection and no final XOR); the value is a 32-bit value, and for the empty
sequence it is `0xFFFFFFFF`. -/
theorem crc32_mpeg2_eq_bit_serial (data : List Nat) (hdata : ∀ b ∈ data, b < 256) :
    crc32_mpeg2 data = crc32_mpeg2_bit_serial data ∧
    crc32_mpeg2 data < 2 ^ 32 ∧
    crc32_mpeg2 [] = 0xFFFFFFFF := by
  refine ⟨fold_eq_bit_serial data hdata 0xFFFFFFFF (by norm_num), ?_, rfl⟩
  unfold crc32_mpeg2
  rcases List.eq_nil_or_concat data with h | ⟨init, b, h⟩
  · rw [h]
    norm_num
  · rw [h, List.concat_eq_append, List.foldl_append]
    exact step_lt _ _

theorem crc32_mpeg2_eq_bit_serial_witness :
    (∀ b ∈ [0x31, 0x32, 0x33, 0x34, 0x35, 0x36, 0x37, 0x38, 0x39], b < 256) ∧
    crc32_mpeg2 [0x31, 0x32, 0x33, 0x34, 0x35, 0x36, 0x37, 0x38, 0x39]
      = crc32_mpeg2_bit_serial [0x31, 0x32, 0x33, 0x34, 0x35, 0x36, 0x37, 0x38, 0x39] :=
  ⟨by decide,
   (crc32_mpeg2_eq_bit_serial [0x31, 0x32, 0x33, 0x34, 0x35, 0x36, 0x37, 0x38, 0x39]
      (by decide)).1⟩

end claims

end math.checksums.crc
